import Mathlib

/-!
Verification of the null.fs replication engine against its specification.

The definitions below are a shallow embedding of the Rust sources:
  * `src/nullfs/mod.rs`      — `NullFsPath`, `FileType`, `File`, `Command`,
    `reduce_contiguous_subsequences`, `Synchronizer::run_sync` (startup part);
  * `src/nullfs/snapshot.rs` — `State`, `Snapshot::capture`/`capture_path`;
  * `src/nullfs/share.rs`    — `CommandStash::unstash`;
  * `src/nullfs/local_fs.rs` — `LocalVolume::hash` (file branch);
  * `src/config.rs`          — the configuration records.

Rust `IndexMap`/`IndexSet` values are modelled as insertion-ordered
association lists / duplicate-free lists with the exact operations the
sources use (`insert` replaces in place or appends, `swap_remove` moves the
last entry into the removed slot, `IndexSet::insert` appends when absent).
Machine integers that the claims touch (`modified` millis, sizes) are
modelled as `Nat`; none of the modelled code paths can overflow-wrap them.
-/

/-! ## Insertion-ordered maps and sets (the `indexmap` operations used) -/

def imGet [DecidableEq κ] (k : κ) : List (κ × ν) → Option ν
  | [] => none
  | e :: rest => if e.1 = k then some e.2 else imGet k rest

/-- `IndexMap::insert`: replace the value in place when the key is present,
append otherwise. -/
def imInsert [DecidableEq κ] (k : κ) (v : ν) : List (κ × ν) → List (κ × ν)
  | [] => [(k, v)]
  | e :: rest => if e.1 = k then (k, v) :: rest else e :: imInsert k v rest

/-- `IndexMap::swap_remove`: remove the first entry with the key by moving the
last entry of the map into its slot. -/
def imSwapRemove [DecidableEq κ] (k : κ) : List (κ × ν) → List (κ × ν)
  | [] => []
  | e :: rest =>
    if e.1 = k then
      match rest.getLast? with
      | none => []
      | some last => last :: rest.dropLast
    else e :: imSwapRemove k rest

def imKeys (l : List (κ × ν)) : List κ := l.map Prod.fst

/-- `IndexSet::insert`: append when absent, keep the original position
otherwise. -/
def isInsert [DecidableEq α] (l : List α) (x : α) : List α :=
  if x ∈ l then l else l ++ [x]

/-- `IndexSet::from_iter`: insert the elements one by one. -/
def isFromIter [DecidableEq α] (l : List α) : List α :=
  l.foldl isInsert []

/-! ## The contiguous-subsequence reducer (`reduce_contiguous_subsequences`)

The Rust loop walks an index `i` through `seq`, pushes `seq[i]`, then scans
`len` downwards from `out.len().min(seq.len() - i - 1)` for the longest
suffix of `out` equal to `seq[i+1 .. i+1+len]` and advances `i` by `1 + len`.
Here the part of `seq` after position `i` is carried as the list `rest`, so
`seq[i]` is `rest`'s head, `seq[i+1 .. i+1+len]` is `rest.tail.take len` and
`seq.len() - i - 1` is `rest.tail.length`.  The comparison is generalised
over the element comparison `eqv` so that the same algorithm can be read at
a different element type; the source function is the instantiation of `eqv`
at decidable equality.  The fuel argument starts at `seq.length` and bounds
the loop; the index strictly increases each iteration, so that fuel is never
exhausted. -/

/-- Rust slice equality `a == b`: equal lengths and pointwise `eqv`. -/
def seqEqv (eqv : α → α → Bool) : List α → List α → Bool
  | [], [] => true
  | a :: as_, b :: bs => eqv a b && seqEqv eqv as_ bs
  | _, _ => false

/-- The descending `for len in (1..=bound).rev()` scan with early break. -/
def findSkipAux (eqv : α → α → Bool) (out rest : List α) : Nat → Nat
  | 0 => 0
  | len + 1 =>
    if seqEqv eqv (out.drop (out.length - (len + 1))) (rest.take (len + 1)) then
      len + 1
    else findSkipAux eqv out rest len

def findSkip (eqv : α → α → Bool) (out rest : List α) : Nat :=
  findSkipAux eqv out rest (min out.length rest.length)

def rcsAux (eqv : α → α → Bool) : Nat → List α → List α → List α
  | _, out, [] => out
  | 0, out, _ :: _ => out
  | fuel + 1, out, x :: rest =>
    let out' := out ++ [x]
    rcsAux eqv fuel out' (rest.drop (findSkip eqv out' rest))

def reduceCSBy (eqv : α → α → Bool) (seq : List α) : List α :=
  rcsAux eqv seq.length [] seq

/-- `reduce_contiguous_subsequences` from `src/nullfs/mod.rs`. -/
def reduce_contiguous_subsequences [DecidableEq α] (seq : List α) : List α :=
  reduceCSBy (fun a b => decide (a = b)) seq

example : reduce_contiguous_subsequences [1, 2, 3, 1, 2, 3, 4, 5, 4, 5, 1, 2] =
    [1, 2, 3, 4, 5, 1, 2] := by decide

/-! ## Virtual paths (`NullFsPath`, `src/nullfs/mod.rs`)

A `NullFsPath` wraps the `Vec<String>` of segments; the Lean model is the
segment list itself.  Display and parsing work on the underlying character
lists (`String.data`); `splitSlash` is Rust `str::split('/')` (it yields one
empty piece for the empty string and keeps empty pieces between separators),
and `joinSegs` is `Vec::join("/")`. -/

abbrev NullFsPath := List String

def splitSlash : List Char → List (List Char)
  | [] => [[]]
  | c :: rest =>
    if c = '/' then [] :: splitSlash rest
    else
      match splitSlash rest with
      | [] => [[c]]
      | s :: ss => (c :: s) :: ss

def joinSegs : List String → List Char
  | [] => []
  | [s] => s.data
  | s :: rest => s.data ++ '/' :: joinSegs rest

/-- Character list of the `Display` form `format!("@/{}", self.0.join("/"))`. -/
def NullFsPath.displayData (p : NullFsPath) : List Char :=
  '@' :: '/' :: joinSegs p

/-- The `Display` implementation for `NullFsPath`. -/
def NullFsPath.display (p : NullFsPath) : String :=
  String.mk p.displayData

/-- `NullFsPath::from_to_str`: split on `'/'`, require the first piece to
start with `'@'`, and keep the remaining pieces as segments.  Rust `split`
always yields at least one piece, so the empty-path error branch is
unreachable, but it is kept as in the source. -/
def NullFsPath.from_to_str (s : String) : Except String NullFsPath :=
  match splitSlash s.data with
  | [] => Except.error "Unexpected empty path"
  | first :: rest =>
    match first with
    | '@' :: _ => Except.ok (rest.map fun cs => String.mk cs)
    | _ => Except.error "Path expected to start with at slash"

/-- Rust byte order on UTF-8 strings, i.e. lexicographic codepoint order on
the character lists; used for `sort_by_key(|k| k.path.to_string())`. -/
def charListLe : List Char → List Char → Bool
  | [], _ => true
  | _ :: _, [] => false
  | a :: as_, b :: bs => if a = b then charListLe as_ bs else decide (a < b)

/-! ## File types (`FileType`, `src/nullfs/mod.rs`)

`NullFsPath::extension` is `PathBuf::from(last_segment).extension()`: the
part of the segment after its last `'.'`, where a dot in first position is
ignored (a leading-dot name with no other dot has no extension).  This is
the documented `Path::extension` behaviour for a single normal component;
segments that are not normal path components (for example `".."`) cannot
occur in directory listings. -/

def afterLastDot : List Char → Option (List Char)
  | [] => none
  | c :: rest =>
    match afterLastDot rest with
    | some e => some e
    | none => if c = '.' then some rest else none

def NullFsPath.extension (p : NullFsPath) : Option String :=
  p.getLast?.bind fun seg =>
    match seg.data with
    | [] => none
    | _ :: rest => (afterLastDot rest).map fun cs => String.mk cs

/-- ASCII lowercasing; the extension table only contains ASCII keys, for
which Rust `to_lowercase` agrees with per-character lowercasing. -/
def lowerString (s : String) : String :=
  String.mk (s.data.map Char.toLower)

inductive FileType where
  | Image
  | Video
  | Document
  | Executable
  | Archive
  | Text
  | Unkown
deriving DecidableEq, Repr

def extTableLookup (e : String) : FileType :=
  if e = "png" ∨ e = "jpg" ∨ e = "jpeg" ∨ e = "gif" ∨ e = "bmp" ∨ e = "webp" ∨
      e = "tiff" then .Image
  else if e = "mp4" ∨ e = "mkv" ∨ e = "avi" ∨ e = "mov" ∨ e = "flv" ∨
      e = "wmv" ∨ e = "webm" then .Video
  else if e = "pdf" ∨ e = "doc" ∨ e = "docx" ∨ e = "xls" ∨ e = "xlsx" ∨
      e = "ppt" ∨ e = "pptx" then .Document
  else if e = "exe" ∨ e = "bat" ∨ e = "sh" ∨ e = "bin" ∨ e = "app" then .Executable
  else if e = "zip" ∨ e = "rar" ∨ e = "7z" ∨ e = "tar" ∨ e = "gz" ∨
      e = "bz2" then .Archive
  else if e = "txt" ∨ e = "md" ∨ e = "csv" ∨ e = "json" ∨ e = "xml" ∨
      e = "yaml" ∨ e = "yml" then .Text
  else .Unkown

/-- `FileType::infer_from_path`.  The source lowercases the extension once in
the `map` and once more in the `match` scrutinee; lowercasing is idempotent,
so a single application is used here. -/
def FileType.infer_from_path (path : NullFsPath) : FileType :=
  match path.extension with
  | some ext => extTableLookup (lowerString ext)
  | none => .Unkown

/-! ## Files and commands (`src/nullfs/mod.rs`) -/

inductive NodeKind where
  | file (size : Nat)
  | dir
deriving DecidableEq, Repr

structure FileStat where
  node : NodeKind
  modified : Nat
  created : Option Nat
  accessed : Option Nat
deriving DecidableEq, Repr

def FileStat.is_dir (s : FileStat) : Bool :=
  match s.node with
  | .dir => true
  | .file _ => false

def FileStat.is_file (s : FileStat) : Bool :=
  !s.is_dir

structure File where
  path : NullFsPath
  file_type : FileType
  stat : FileStat
deriving DecidableEq, Repr

inductive Command where
  | delete (file : File)
  | write (file : File)
  | touch (file : File)
deriving DecidableEq, Repr

/-! ## Snapshot state (`State`, `src/nullfs/snapshot.rs`)

`store`, `dirs` and `hashes` are the persisted `IndexMap`s; `commands` is the
`#[serde(skip)]` working `IndexSet`.  Loading a state file therefore always
yields an empty `commands` set, which `Snapshot.capture` models by clearing
the field on entry. -/

structure State where
  store : List (NullFsPath × File)
  dirs : List (NullFsPath × List File)
  hashes : List (NullFsPath × String)
  commands : List Command
deriving DecidableEq, Repr

def State.new : State :=
  { store := [], dirs := [], hashes := [], commands := [] }

def State.insertCommand (s : State) (c : Command) : State :=
  { s with commands := isInsert s.commands c }

/-- `State::update_on_change`.  The source bails with an error when handed a
directory; both call sites guard with `is_file` first, so the model returns
`false` without touching the state on that unreachable branch. -/
def State.update_on_change (s : State) (file : File) : Bool × State :=
  if file.stat.is_dir then (false, s)
  else
    match imGet file.path s.store with
    | some prev =>
      if prev.stat.modified ≠ file.stat.modified then
        (true, { s with store := imInsert file.path file s.store })
      else (false, s)
    | none => (true, { s with store := imInsert file.path file s.store })

def deletedPaths (cmds : List Command) : List NullFsPath :=
  cmds.filterMap fun c =>
    match c with
    | .delete f => some f.path
    | _ => none

def createdPaths (cmds : List Command) : List NullFsPath :=
  cmds.filterMap fun c =>
    match c with
    | .write f => some f.path
    | _ => none

/-- One iteration of the command loop in `State::finalize`: a `Delete`
removes its path from `store` and `dirs`, other commands do nothing here. -/
def finalizeStep (acc : State) (c : Command) : State :=
  match c with
  | .delete f =>
    { acc with
      store := imSwapRemove f.path acc.store
      dirs := imSwapRemove f.path acc.dirs }
  | _ => acc

/-- `State::finalize`.  The source makes one pass over a clone of the command
set, removing each `Delete` path from `store` and `dirs` and collecting the
`Write` paths into `created`; since `created` is only read after that pass,
it is collected here in a separate pass over the same list.  The `retain`
then drops every `Touch` whose path is in `created`. -/
def State.finalize (s : State) : State :=
  let cleaned := s.commands.foldl finalizeStep s
  let created := createdPaths s.commands
  { cleaned with
    commands := cleaned.commands.filter fun c =>
      match c with
      | .touch f => decide (f.path ∉ created)
      | _ => true }

def State.infer_commands (s : State) : List Command :=
  s.commands

/-! ## The volume tree and `Snapshot::capture_path`

The filesystem a capture walks is modelled as a finite tree: every node
carries the `FileStat` that `stats` reports for it and the list of named
children that `read_dir` yields, in directory order.  `stats(p).is_dir()`
and the node kind come from the same host metadata, so the walk branches on
the recorded stat exactly as the source does.  `LocalVolume::dir` wraps each
child in a `File` whose `file_type` is inferred from its virtual path; the
model keeps the child subtree next to each `File` so that the recursion of
`capture_path` (which the source performs by resolving the child path) can
follow it directly.  The recursion is driven by a fuel argument instantiated
with `FsTree.fuel` (the node count of the tree), which strictly exceeds its
height. -/

inductive FsTree where
  | node (stat : FileStat) (entries : List (String × FsTree))

def FsTree.stat : FsTree → FileStat
  | .node s _ => s

def FsTree.entries : FsTree → List (String × FsTree)
  | .node _ es => es

mutual

def FsTree.fuel : FsTree → Nat
  | .node _ es => fuelEntries es + 1

def fuelEntries : List (String × FsTree) → Nat
  | [] => 0
  | e :: rest => e.2.fuel + fuelEntries rest

end

def mkFile (path : NullFsPath) (stat : FileStat) : File :=
  { path := path, file_type := FileType.infer_from_path path, stat := stat }

def dirPairs (path : NullFsPath) (t : FsTree) : List (File × FsTree) :=
  t.entries.map fun e => (mkFile (path ++ [e.1]) e.2.stat, e.2)

/-- `IndexSet::from_iter` over the listed `File`s (the attached subtrees ride
along with their `File`). -/
def isInsertByFile (acc : List (File × FsTree)) (x : File × FsTree) :
    List (File × FsTree) :=
  if acc.any fun y => decide (y.1 = x.1) then acc else acc ++ [x]

def isFromIterPairs (l : List (File × FsTree)) : List (File × FsTree) :=
  l.foldl isInsertByFile []

/-- `curr_files.sort_by_key(|k| k.path.to_string())`. -/
def pairLe (a b : File × FsTree) : Prop :=
  charListLe a.1.path.displayData b.1.path.displayData = true

instance : DecidableRel pairLe :=
  fun a b => instDecidableEqBool (charListLe a.1.path.displayData b.1.path.displayData) true

def currPairs (path : NullFsPath) (t : FsTree) : List (File × FsTree) :=
  List.insertionSort pairLe (isFromIterPairs (dirPairs path t))

/-- Unreachable fallback for the `wrap_err`-guarded map lookups: the keys
come from set differences of the map key sets, so they are always present. -/
def panicFile : File :=
  { path := [], file_type := .Unkown,
    stat := { node := .dir, modified := 0, created := none, accessed := none } }

def pathMapOf (files : List File) : List (NullFsPath × File) :=
  files.foldl (fun m f => imInsert f.path f m) []

/-- Steps d and e of `capture_path`: when a previous listing exists, emit
`Write` for added keys and `Delete` for removed keys; otherwise set
`all_new`.  Returns `(all_new, state)`. -/
def State.diffPrev (s : State) (path : NullFsPath) (curr : List File) :
    Bool × State :=
  match imGet path s.dirs with
  | some prev =>
    let prevMap := pathMapOf prev
    let currMap := pathMapOf curr
    let prevKeys := isFromIter (prev.map File.path)
    let currKeys := isFromIter (curr.map File.path)
    let added := currKeys.filter fun k => decide (k ∉ prevKeys)
    let removed := prevKeys.filter fun k => decide (k ∉ currKeys)
    let s1 := added.foldl
      (fun acc k => acc.insertCommand (.write ((imGet k currMap).getD panicFile))) s
    let s2 := removed.foldl
      (fun acc k => acc.insertCommand (.delete ((imGet k prevMap).getD panicFile))) s1
    (false, s2)
  | none => (true, s)

/-- The `for entry in curr_files` loop of `capture_path`; `rec` is the
recursive call at one fuel step less. -/
def captureEntries (rec : FsTree → NullFsPath → State → State) :
    List (File × FsTree) → Bool → State → State
  | [], _, s => s
  | (f, c) :: rest, allNew, s =>
    let s1 := if allNew then s.insertCommand (.write f) else s
    let s2 :=
      if f.stat.is_file then
        let r := s1.update_on_change f
        if r.1 then r.2.insertCommand (.touch f) else r.2
      else rec c f.path s1
    captureEntries rec rest allNew s2

def capturePath : Nat → FsTree → NullFsPath → State → State
  | 0, _, _, s => s
  | fuel + 1, t, path, s =>
    if t.stat.is_dir = false then s
    else
      let pairs := currPairs path t
      let curr := pairs.map Prod.fst
      let dn := s.diffPrev path curr
      let s1 := { dn.2 with dirs := imInsert path curr dn.2.dirs }
      captureEntries (capturePath fuel) pairs dn.1 s1

/-- `Snapshot::capture`: load the state (its `commands` set is never
serialized, so it starts empty), walk from `AnyFs::volume_root` (`@/<name>`
parses to the one-segment path), finalize, persist, and return the command
set.  Volume names contain no slash. -/
def Snapshot.capture (t : FsTree) (volume : String) (s : State) :
    List Command × State :=
  let s0 : State := { s with commands := [] }
  let root : NullFsPath := [volume]
  let s1 := capturePath t.fuel t root s0
  let s2 := s1.finalize
  (s2.infer_commands, s2)

/-! ## Observation functions over the walk

These mirror the branching of `capture_path` exactly and collect, for a walk
of the subtree at `path`: the visited directory paths (the keys written to
`dirs`), the file paths seen as entries (the keys `update_on_change`
touches), and all listed entries (the `File`s a first capture must write). -/

def visitedDirsEntries (rec : FsTree → NullFsPath → List NullFsPath) :
    List (File × FsTree) → List NullFsPath
  | [] => []
  | (f, c) :: rest =>
    (if f.stat.is_file then [] else rec c f.path) ++ visitedDirsEntries rec rest

def visitedDirs : Nat → FsTree → NullFsPath → List NullFsPath
  | 0, _, _ => []
  | fuel + 1, t, path =>
    if t.stat.is_dir = false then []
    else path :: visitedDirsEntries (visitedDirs fuel) (currPairs path t)

def visitedFilesEntries (rec : FsTree → NullFsPath → List NullFsPath) :
    List (File × FsTree) → List NullFsPath
  | [] => []
  | (f, c) :: rest =>
    (if f.stat.is_file then [f.path] else rec c f.path) ++ visitedFilesEntries rec rest

def visitedFiles : Nat → FsTree → NullFsPath → List NullFsPath
  | 0, _, _ => []
  | fuel + 1, t, path =>
    if t.stat.is_dir = false then []
    else visitedFilesEntries (visitedFiles fuel) (currPairs path t)

def discoveredGo (rec : FsTree → NullFsPath → List File) :
    List (File × FsTree) → List File
  | [] => []
  | (f, c) :: rest =>
    (if f.stat.is_file then [] else rec c f.path) ++ discoveredGo rec rest

def discoveredEntries : Nat → FsTree → NullFsPath → List File
  | 0, _, _ => []
  | fuel + 1, t, path =>
    if t.stat.is_dir = false then []
    else
      let pairs := currPairs path t
      pairs.map Prod.fst ++ discoveredGo (discoveredEntries fuel) pairs

/-- Well-formed directory listing data: names are unique within every
directory, as `read_dir` guarantees. -/
def treeOK : Nat → FsTree → Bool
  | 0, _ => true
  | fuel + 1, t =>
    decide ((t.entries.map Prod.fst).Nodup) && t.entries.all fun e => treeOK fuel e.2

/-- Key `q` is a direct child of `p`, i.e. `q = p ++ [n]` for some segment. -/
def isChildSeg (q p : NullFsPath) : Bool :=
  decide (q ≠ [] ∧ q.dropLast = p)

/-- The data-model invariant on `dirs`: every listed entry is a direct child
of its directory key. -/
def dirsChildOK (dirs : List (NullFsPath × List File)) : Bool :=
  dirs.all fun e => e.2.all fun g => isChildSeg g.path e.1

/-- Representation invariant of `IndexMap`: keys are pairwise distinct. -/
def keysNodup [DecidableEq κ] (l : List (κ × ν)) : Bool :=
  decide (imKeys l).Nodup

/-- Path `q` lies in the subtree rooted at `p` (inclusive). -/
def PathLeads (p q : NullFsPath) : Prop :=
  ∃ r, p ++ r = q

/-! ## The synchronisation predicate for a walk

`Synced fuel t path sigma` says the persisted state already reflects the
subtree at `path`: the `dirs` entry of every directory the walk would visit
equals the listing the walk would compute, and the `store` entry of every
file entry carries its current `modified` stamp.  A second walk from such a
state emits nothing; this is the induction vehicle for the capture
idempotence claim. -/

def EntriesSynced (syncRec : FsTree → NullFsPath → State → Prop) :
    List (File × FsTree) → State → Prop
  | [], _ => True
  | (f, c) :: rest, σ =>
    (if f.stat.is_file = true then
        ∃ g, imGet f.path σ.store = some g ∧ g.stat.modified = f.stat.modified
      else syncRec c f.path σ) ∧
      EntriesSynced syncRec rest σ

def Synced : Nat → FsTree → NullFsPath → State → Prop
  | 0, _, _, _ => True
  | fuel + 1, t, path, σ =>
    t.stat.is_dir = true →
      imGet path σ.dirs = some ((currPairs path t).map Prod.fst) ∧
        EntriesSynced (Synced fuel) (currPairs path t) σ

/-! ## The command stash (`CommandStash::unstash`, `src/nullfs/share.rs`)

A stash row is a `StashedCommand` as stored in the `Command` table.  The
model keeps the rows post-deserialization: `command` is the parsed command
(serialization round-trips by construction of `stash`), `timestamp` is a
point on the RFC 3339 timeline modelled as `Nat` (RFC 3339 strings for a
single writer compare chronologically), and `hash`/`id`/`volume` are the
stored strings.  The SQL query `WHERE state = 0 AND volume = ? ORDER BY
timestamp ASC` is a filter followed by a sort on the row list standing for
the table. -/

structure StashedCommand where
  id : String
  hash : String
  command : Command
  timestamp : Nat
  volume : String
  state : Int
deriving DecidableEq, Repr

def rowLe (a b : StashedCommand) : Prop :=
  a.timestamp ≤ b.timestamp

instance : DecidableRel rowLe :=
  fun a b => Nat.decLe a.timestamp b.timestamp

def pendingRows (table : List StashedCommand) (volume : String) :
    List StashedCommand :=
  List.insertionSort rowLe
    (table.filter fun r => decide (r.state = 0) && decide (r.volume = volume))

/-- Unreachable fallback for `results.get(k).unwrap()`: every collapsed hash
is one of the fetched hashes, so the lookup always succeeds. -/
def panicRow : StashedCommand :=
  { id := "", hash := "", command := .delete panicFile, timestamp := 0,
    volume := "", state := 0 }

/-- `CommandStash::unstash`: fetch the pending rows in timestamp order,
record the hash sequence, key the rows by hash in an `IndexMap` (a repeated
hash therefore overwrites the previously keyed row), reduce the hash
sequence, and map every reduced hash back through the map. -/
def unstash (table : List StashedCommand) (volume : String) :
    List StashedCommand :=
  let rows := pendingRows table volume
  let contiguousHashes := rows.map StashedCommand.hash
  let results := rows.foldl (fun m r => imInsert r.hash r m) []
  let collapsed := reduce_contiguous_subsequences contiguousHashes
  collapsed.map fun k => (imGet k results).getD panicRow

/-- The specification side of claim C1, following the spec words: the rows
that occupied the positions the reducer emits, i.e. the reducer applied to
the pending row sequence itself with rows compared by their hash
fingerprint. -/
def unstashSpecPositional (table : List StashedCommand) (volume : String) :
    List StashedCommand :=
  reduceCSBy (fun a b => decide (a.hash = b.hash)) (pendingRows table volume)

/-! ## Configuration and `Synchronizer::run_sync` startup (`src/config.rs`,
`src/nullfs/mod.rs`)

Only the resolution phase that precedes the sync loop is modelled: the
nested `vol2relay` collection and the `is_empty` bail-out.  Opening the
stash database and initializing the backends are backend effects outside the
claim. -/

structure User where
  name : String
  password : Option String
deriving DecidableEq, Repr

structure RelayNode where
  address : String
  auth : User
deriving DecidableEq, Repr

inductive StoreKind where
  | localStore (root : String)
deriving DecidableEq, Repr

structure VolumeItem where
  allow : List String
  pull_from : List String
  store : StoreKind
deriving DecidableEq, Repr

structure NodeConfig where
  name : String
  address : String
  port : Nat
  refresh_secs : Option Nat
  users : List User
  relay_nodes : List (String × RelayNode)
  volumes : List (String × VolumeItem)
deriving DecidableEq, Repr

def NodeConfig.resolve_alias (c : NodeConfig) (value : String) :
    Except String RelayNode :=
  match imGet value c.relay_nodes with
  | some r => Except.ok r
  | none => Except.error ("Unable to resolve relay node " ++ value)

structure LocalVolumeFs where
  name : String
  root : String
deriving DecidableEq, Repr

structure ShareNodeRef where
  name : String
  relay : RelayNode
deriving DecidableEq, Repr

def AnyFs.from_volume_item (name : String) (vol : VolumeItem) : LocalVolumeFs :=
  match vol.store with
  | .localStore root => { name := name, root := root }

def resolveVolume (c : NodeConfig) (vn : String) (vol : VolumeItem) :
    Except String (List (LocalVolumeFs × ShareNodeRef)) :=
  vol.pull_from.mapM fun share =>
    (c.resolve_alias share).map fun relay =>
      (AnyFs.from_volume_item vn vol, { name := share, relay := relay })

/-- The `vol2relay` collection of `run_sync`: one inner list per volume, one
pair per alias in that volume's `pull_from`; any resolution failure fails
the whole collection, as `collect::<Result<_>>` does. -/
def resolveVol2Relay (c : NodeConfig) :
    Except String (List (List (LocalVolumeFs × ShareNodeRef))) :=
  c.volumes.mapM fun e => resolveVolume c e.1 e.2

inductive StartupOutcome where
  | resolveError (msg : String)
  | noRelays
  | started (pairs : List (List (LocalVolumeFs × ShareNodeRef)))
deriving DecidableEq, Repr

/-- The startup portion of `Synchronizer::run_sync` up to and including the
`vol2relay.is_empty()` bail-out. -/
def runSyncStartup (c : NodeConfig) : StartupOutcome :=
  match resolveVol2Relay c with
  | .error m => .resolveError m
  | .ok v => if v.isEmpty then .noRelays else .started v

def startupFails (c : NodeConfig) : Bool :=
  match runSyncStartup c with
  | .started _ => false
  | _ => true

/-- The flattened list of resolved `(backend, peer)` pairs the claim speaks
about. -/
def resolvedFlatPairs (c : NodeConfig) : List (LocalVolumeFs × ShareNodeRef) :=
  match resolveVol2Relay c with
  | .ok v => v.flatten
  | .error _ => []

/-! ## `LocalVolume::hash`, file branch (`src/nullfs/local_fs.rs`)

The reader is modelled as the finite script of results its successive
`read` calls return: `Ok(chunk)` delivers the bytes of the chunk, `Err(e)`
is an I/O failure.  The loop `while let Ok(n) = reader.read(&mut buffer)`
leaves the loop on an error result as well as on `n == 0`, and the bytes
seen so far are exactly the stream fed to the SHA-256 hasher; the digest is
a function of that stream, which the model returns in place of the hex
digest. -/

def hashLoop (hasher : List Nat) : List (Except String (List Nat)) → List Nat
  | [] => hasher
  | .error _ :: _ => hasher
  | .ok chunk :: rest =>
    if chunk.isEmpty then hasher else hashLoop (hasher ++ chunk) rest

/-- The file branch of `LocalVolume::hash`: run the read loop from an empty
hasher and return `Ok` of the digest input unconditionally. -/
def LocalVolume.hashFile (reads : List (Except String (List Nat))) :
    Except String (List Nat) :=
  Except.ok (hashLoop [] reads)

/-- The bytes delivered before the first read failure or end of file; the
hash the claim says the function reports. -/
def bytesBeforeFirstFailure : List (Except String (List Nat)) → List Nat
  | [] => []
  | .error _ :: _ => []
  | .ok chunk :: rest =>
    if chunk.isEmpty then [] else chunk ++ bytesBeforeFirstFailure rest

/-! ## Concrete inputs for witnesses and counterexamples -/

def exFileStat (m : Nat) : FileStat :=
  { node := .file 3, modified := m, created := none, accessed := none }

def exDirStat : FileStat :=
  { node := .dir, modified := 0, created := none, accessed := none }

def exFileDirA : File := mkFile ["v", "a"] exDirStat

def exFileX : File := mkFile ["v", "a", "x"] (exFileStat 5)

def exFileB : File := mkFile ["v", "b.txt"] (exFileStat 7)

/-- A volume tree: `@/v/a/x` is a file inside directory `@/v/a`. -/
def exTreeAX : FsTree :=
  .node exDirStat [("a", .node exDirStat [("x", .node (exFileStat 5) [])])]

/-- A snapshot state violating the spec data-model invariant on `dirs`: the
root listing contains an entry whose path `@/v/a/x` is not a direct child of
`@/v`. -/
def exStateBad : State :=
  { store := [(["v", "a", "x"], exFileX)]
    dirs := [(["v"], [exFileDirA, exFileX]), (["v", "a"], [exFileX])]
    hashes := []
    commands := [] }

def exCmd : Command := .write exFileB

def exRowA : StashedCommand :=
  { id := "0", hash := "h", command := exCmd, timestamp := 0, volume := "v", state := 0 }

def exRowB : StashedCommand :=
  { id := "1", hash := "h", command := exCmd, timestamp := 1, volume := "v", state := 0 }

def exRowC : StashedCommand :=
  { id := "2", hash := "a", command := exCmd, timestamp := 0, volume := "v", state := 0 }

def exRowD : StashedCommand :=
  { id := "3", hash := "b", command := exCmd, timestamp := 1, volume := "v", state := 0 }

def exStashDup : List StashedCommand := [exRowA, exRowB]

def exStashOK : List StashedCommand := [exRowC, exRowD]

def exStateTW : State :=
  { store := [], dirs := [], hashes := []
    commands := [Command.write exFileB, Command.touch exFileX] }

def exStateDel : State :=
  { store := [(["v", "a", "x"], exFileX)], dirs := [(["v", "a", "x"], [])]
    hashes := [], commands := [Command.delete exFileX] }

def exStateDelDir : State :=
  { store := [(["v", "a", "x"], exFileX)], dirs := [(["v", "a"], [exFileX])]
    hashes := [], commands := [Command.delete exFileDirA] }

def exRelay : RelayNode :=
  { address := "http://peer.example:9000", auth := { name := "u", password := none } }

/-- One volume that pulls from nobody: zero resolved pairs, non-empty
`vol2relay`. -/
def cfgEmptyPull : NodeConfig :=
  { name := "n"
    address := "0.0.0.0"
    port := 8080
    refresh_secs := none
    users := []
    relay_nodes := []
    volumes := [("v", { allow := [], pull_from := [], store := .localStore "/data" })] }

def cfgResolved : NodeConfig :=
  { name := "n"
    address := "0.0.0.0"
    port := 8080
    refresh_secs := some 5
    users := [{ name := "u", password := none }]
    relay_nodes := [("r", exRelay)]
    volumes := [("v", { allow := ["u"], pull_from := ["r"], store := .localStore "/data" })] }

deriving instance DecidableEq for Except

/-! # Theorems

General lemmas come first, then one designated theorem per claim (with its
witness or counterexample where required). -/

/-! ## The reducer: last-element preservation and failure of retraction -/

theorem seqEqv_eq_iff [DecidableEq α] (xs ys : List α) :
    seqEqv (fun a b => decide (a = b)) xs ys = true ↔ xs = ys := by
  induction xs generalizing ys with
  | nil => cases ys <;> simp [seqEqv]
  | cons a as_ ih =>
    cases ys with
    | nil => simp [seqEqv]
    | cons b bs => simp [seqEqv, ih]

theorem findSkipAux_le (eqv : α → α → Bool) (out rest : List α) :
    ∀ n, findSkipAux eqv out rest n ≤ n := by
  intro n
  induction n with
  | zero => simp [findSkipAux]
  | succ m ih =>
    unfold findSkipAux
    split
    · exact Nat.le_refl _
    · exact Nat.le_trans ih (Nat.le_succ m)

theorem findSkipAux_spec (eqv : α → α → Bool) (out rest : List α) (n : Nat)
    (h : findSkipAux eqv out rest n ≠ 0) :
    seqEqv eqv (out.drop (out.length - findSkipAux eqv out rest n))
      (rest.take (findSkipAux eqv out rest n)) = true := by
  induction n with
  | zero => simp [findSkipAux] at h
  | succ m ih =>
    by_cases hc :
        seqEqv eqv (out.drop (out.length - (m + 1))) (rest.take (m + 1)) = true
    · simp [findSkipAux, hc]
    · simp only [findSkipAux, if_neg hc] at h ⊢
      exact ih h

theorem findSkip_le (eqv : α → α → Bool) (out rest : List α) :
    findSkip eqv out rest ≤ min out.length rest.length :=
  findSkipAux_le eqv out rest _

theorem findSkip_spec (eqv : α → α → Bool) (out rest : List α)
    (h : findSkip eqv out rest ≠ 0) :
    seqEqv eqv (out.drop (out.length - findSkip eqv out rest))
      (rest.take (findSkip eqv out rest)) = true :=
  findSkipAux_spec eqv out rest _ h

theorem rcsAux_getLast [DecidableEq α] :
    ∀ (fuel : Nat) (out rest : List α), rest.length ≤ fuel →
      (rcsAux (fun a b => decide (a = b)) fuel out rest).getLast? =
        (out ++ rest).getLast? := by
  intro fuel
  induction fuel with
  | zero =>
    intro out rest h
    have hr : rest = [] := List.length_eq_zero.mp (Nat.le_zero.mp h)
    subst hr
    simp [rcsAux]
  | succ m ih =>
    intro out rest h
    cases rest with
    | nil => simp [rcsAux]
    | cons x rs =>
      simp only [rcsAux]
      have hle : rs.length ≤ m := by
        simp only [List.length_cons] at h
        omega
      have hdl :
          (rs.drop (findSkip (fun a b => decide (a = b)) (out ++ [x]) rs)).length ≤ m := by
        rw [List.length_drop]
        exact Nat.le_trans (Nat.sub_le _ _) hle
      rw [ih (out ++ [x]) _ hdl]
      by_cases hd : rs.drop (findSkip (fun a b => decide (a = b)) (out ++ [x]) rs) = []
      · rw [hd, List.append_nil, List.getLast?_concat, List.getLast?_append_cons]
        by_cases hrs : rs = []
        · subst hrs
          simp
        · have hskips : rs.length - findSkip (fun a b => decide (a = b)) (out ++ [x]) rs = 0 := by
            simpa using congrArg List.length hd
          have h2 := findSkip_le (fun a b => decide (a = b)) (out ++ [x]) rs
          have hskeq : findSkip (fun a b => decide (a = b)) (out ++ [x]) rs = rs.length := by
            omega
          have hrslen : rs.length ≠ 0 := by
            simpa using hrs
          have hskne : findSkip (fun a b => decide (a = b)) (out ++ [x]) rs ≠ 0 := by
            rw [hskeq]
            exact hrslen
          have hseq := findSkip_spec (fun a b => decide (a = b)) (out ++ [x]) rs hskne
          rw [seqEqv_eq_iff] at hseq
          rw [hskeq, List.take_length] at hseq
          have hdle : (out ++ [x]).length - rs.length ≤ out.length := by
            simp
            omega
          rw [List.drop_append_of_le_length hdle] at hseq
          rw [← hseq, ← List.cons_append, List.getLast?_concat]
      · rw [List.getLast?_append_of_ne_nil _ hd, List.getLast?_append_cons]
        have hrsne : rs ≠ [] := by
          intro e
          rw [e] at hd
          simp at hd
        have hx : (x :: rs).getLast? = rs.getLast? := by
          simpa using List.getLast?_append_of_ne_nil [x] hrsne
        rw [hx]
        conv_rhs =>
          rw [← List.take_append_drop
            (findSkip (fun a b => decide (a = b)) (out ++ [x]) rs) rs]
        rw [List.getLast?_append_of_ne_nil _ hd]

/-- Claim C4, amended: the contiguous-subsequence reducer never drops the
final element of its input — the last element of
`reduce_contiguous_subsequences seq` equals the last element of `seq` (both
`getLast?`, so the empty case is covered as well).  The retraction half of
the original claim is refuted by `reduce_retraction_counterexample`. -/
theorem reduce_contiguous_subsequences_getLast {α} [DecidableEq α] (seq : List α) :
    (reduce_contiguous_subsequences seq).getLast? = seq.getLast? := by
  unfold reduce_contiguous_subsequences reduceCSBy
  simpa using rcsAux_getLast seq.length [] seq (Nat.le_refl _)

/-- Claim C4, counterexample: the reducer is not a retraction.  On the input
`[1, 2, 1, 1, 2]` one application yields `[1, 2, 1, 2]` (after emitting the
second `1` the singleton suffix `[1]` matches and is skipped), while a
second application collapses the now-adjacent repetition `[1, 2] [1, 2]` to
`[1, 2]`. -/
theorem reduce_retraction_counterexample :
    reduce_contiguous_subsequences (reduce_contiguous_subsequences [1, 2, 1, 1, 2]) ≠
      reduce_contiguous_subsequences ([1, 2, 1, 1, 2] : List Nat) := by
  decide


/-! ## Index-map lemmas -/

theorem imGet_imInsert_self [DecidableEq κ] (k : κ) (v : ν) (l : List (κ × ν)) :
    imGet k (imInsert k v l) = some v := by
  induction l with
  | nil => simp [imGet, imInsert]
  | cons e rest ih =>
    by_cases he : e.1 = k
    · simp [imInsert, he, imGet]
    · simp [imInsert, he, imGet, ih]

theorem imGet_imInsert_ne [DecidableEq κ] {k' k : κ} (v : ν) (l : List (κ × ν))
    (h : k' ≠ k) : imGet k' (imInsert k v l) = imGet k' l := by
  induction l with
  | nil => simp [imGet, imInsert, Ne.symm h]
  | cons e rest ih =>
    by_cases he : e.1 = k
    · simp [imInsert, he, imGet, Ne.symm h]
    · simp [imInsert, he, imGet, ih]

theorem getLast?_cons_or (l : List α) (x : α) :
    (x :: l).getLast? = l.getLast?.or (some x) := by
  induction l generalizing x with
  | nil => rfl
  | cons y ys ih =>
    rw [List.getLast?_cons_cons, ih y]
    rw [Option.or_assoc]
    rfl

/-! ## Lemmas for the stash reduction (claim C1) -/

theorem seqEqv_comp (f : α → β) (eqv : β → β → Bool) :
    ∀ xs ys : List α,
      seqEqv (fun a b => eqv (f a) (f b)) xs ys = seqEqv eqv (xs.map f) (ys.map f) := by
  intro xs
  induction xs with
  | nil => intro ys; cases ys <;> simp [seqEqv]
  | cons a as_ ih =>
    intro ys
    cases ys with
    | nil => simp [seqEqv]
    | cons b bs => simp [seqEqv, ih]

theorem findSkipAux_comp (f : α → β) (eqv : β → β → Bool) (out rest : List α) :
    ∀ n, findSkipAux (fun a b => eqv (f a) (f b)) out rest n =
      findSkipAux eqv (out.map f) (rest.map f) n := by
  intro n
  induction n with
  | zero => rfl
  | succ m ih =>
    simp only [findSkipAux]
    rw [seqEqv_comp f eqv, List.map_drop, List.map_take, List.length_map, ih]

theorem findSkip_comp (f : α → β) (eqv : β → β → Bool) (out rest : List α) :
    findSkip (fun a b => eqv (f a) (f b)) out rest =
      findSkip eqv (out.map f) (rest.map f) := by
  unfold findSkip
  rw [List.length_map, List.length_map, findSkipAux_comp]

theorem rcsAux_comp (f : α → β) (eqv : β → β → Bool) :
    ∀ (fuel : Nat) (out l : List α),
      (rcsAux (fun a b => eqv (f a) (f b)) fuel out l).map f =
        rcsAux eqv fuel (out.map f) (l.map f) := by
  intro fuel
  induction fuel with
  | zero => intro out l; cases l <;> simp [rcsAux]
  | succ m ih =>
    intro out l
    cases l with
    | nil => simp [rcsAux]
    | cons x rs =>
      simp only [rcsAux, List.map_cons]
      rw [ih]
      rw [List.map_append, List.map_drop, findSkip_comp f eqv, List.map_append]
      simp

theorem rcsAux_mem (eqv : α → α → Bool) :
    ∀ (fuel : Nat) (out l : List α) (x : α),
      x ∈ rcsAux eqv fuel out l → x ∈ out ∨ x ∈ l := by
  intro fuel
  induction fuel with
  | zero =>
    intro out l x h
    cases l with
    | nil => exact Or.inl (by simpa [rcsAux] using h)
    | cons a as_ => exact Or.inl (by simpa [rcsAux] using h)
  | succ m ih =>
    intro out l x h
    cases l with
    | nil => exact Or.inl (by simpa [rcsAux] using h)
    | cons a rs =>
      simp only [rcsAux] at h
      rcases ih _ _ x h with h1 | h2
      · rcases List.mem_append.mp h1 with h3 | h4
        · exact Or.inl h3
        · simp only [List.mem_singleton] at h4
          subst h4
          exact Or.inr (List.mem_cons_self _ _)
      · exact Or.inr (List.mem_cons_of_mem a (List.drop_subset _ rs h2))

theorem stashResults_get (k : String) :
    ∀ (rows : List StashedCommand) (m : List (String × StashedCommand)),
      imGet k (rows.foldl (fun acc r => imInsert r.hash r acc) m) =
        ((rows.filter fun r => decide (r.hash = k)).getLast?).or (imGet k m) := by
  intro rows
  induction rows with
  | nil => intro m; simp [Option.none_or]
  | cons r rest ih =>
    intro m
    simp only [List.foldl_cons, List.filter_cons]
    by_cases hr : r.hash = k
    · rw [ih, hr, imGet_imInsert_self]
      rw [if_pos (by simp)]
      rw [getLast?_cons_or, Option.or_assoc]
      rfl
    · rw [ih, imGet_imInsert_ne r m (fun e => hr e.symm)]
      simp [hr]

theorem filter_hash_eq_of_nodup :
    ∀ (rows : List StashedCommand),
      ((rows.map StashedCommand.hash).Nodup) →
      ∀ r ∈ rows, rows.filter (fun s => decide (s.hash = r.hash)) = [r] := by
  intro rows
  induction rows with
  | nil => intro _ r hr; simp at hr
  | cons a rest ih =>
    intro hnd r hr
    simp only [List.map_cons, List.nodup_cons] at hnd
    obtain ⟨hna, hnr⟩ := hnd
    rcases List.mem_cons.mp hr with he | hm
    · subst he
      have hrest : rest.filter (fun s => decide (s.hash = r.hash)) = [] := by
        apply List.filter_eq_nil_iff.mpr
        intro s hs
        simp only [decide_eq_true_eq]
        intro he2
        exact hna (by rw [← he2]; exact List.mem_map_of_mem _ hs)
      simp [List.filter_cons, hrest]
    · have hne : ¬ (a.hash = r.hash) := by
        intro he2
        exact hna (he2 ▸ List.mem_map_of_mem StashedCommand.hash hm)
      rw [List.filter_cons, if_neg (by simpa using hne)]
      exact ih hnr r hm

/-- Claim C1, amended: when the pending rows of the volume carry pairwise
distinct hash fingerprints, `unstash` returns exactly the rows occupying the
positions that the contiguous-subsequence reduction of their hash sequence
emits (`unstashSpecPositional`).  With duplicated fingerprints the hash-keyed
`results` map retains only the last row per fingerprint, and the positional
correspondence fails: see `unstash_positional_counterexample`. -/
theorem unstash_positional_of_nodup (table : List StashedCommand) (volume : String)
    (hnd : ((pendingRows table volume).map StashedCommand.hash).Nodup) :
    unstash table volume = unstashSpecPositional table volume := by
  simp only [unstash, unstashSpecPositional]
  generalize hrows : pendingRows table volume = rows at hnd ⊢
  have hcomp := rcsAux_comp StashedCommand.hash (fun a b => decide (a = b))
    rows.length [] rows
  simp only [List.map_nil] at hcomp
  unfold reduce_contiguous_subsequences reduceCSBy
  rw [List.length_map, ← hcomp, List.map_map]
  have hpoint : ∀ r ∈ rcsAux (fun a b => decide (a.hash = b.hash)) rows.length [] rows,
      ((fun k => (imGet k (rows.foldl (fun acc s => imInsert s.hash s acc) [])).getD panicRow)
        ∘ StashedCommand.hash) r = r := by
    intro r hrm
    have hmem : r ∈ rows := by
      rcases rcsAux_mem _ _ _ _ _ hrm with h | h
      · simp at h
      · exact h
    simp only [Function.comp_apply]
    rw [stashResults_get r.hash rows []]
    rw [filter_hash_eq_of_nodup rows hnd r hmem]
    rfl
  rw [List.map_congr_left hpoint]
  exact List.map_id _

/-- Claim C1, witness for the amended theorem: a two-row table with distinct
fingerprints. -/
theorem unstash_positional_witness :
    ((pendingRows exStashOK "v").map StashedCommand.hash).Nodup ∧
      unstash exStashOK "v" = unstashSpecPositional exStashOK "v" :=
  ⟨by decide, unstash_positional_of_nodup exStashOK "v" (by decide)⟩

/-- Claim C1, counterexample to the original claim: two pending rows with
equal fingerprints and distinct ids.  The reduction collapses the hash
sequence `["h", "h"]` to `["h"]`, whose positional row is the first row, but
`unstash` returns the second row because the hash-keyed map was overwritten
by it. -/
theorem unstash_positional_counterexample :
    unstash exStashDup "v" ≠ unstashSpecPositional exStashDup "v" ∧
      (unstash exStashDup "v").map StashedCommand.id = ["1"] ∧
      (unstashSpecPositional exStashDup "v").map StashedCommand.id = ["0"] := by
  refine ⟨by decide, by decide, by decide⟩

/-! ## Path round-trip lemmas (claim C7) -/

theorem splitSlash_no_slash (cs : List Char) (h : '/' ∉ cs) :
    splitSlash cs = [cs] := by
  induction cs with
  | nil => rfl
  | cons c rest ih =>
    have hc : ¬ c = '/' := fun e => h (by simp [e])
    have hr : '/' ∉ rest := fun e => h (List.mem_cons_of_mem c e)
    simp [splitSlash, hc, ih hr]

theorem splitSlash_append (a b : List Char) (h : '/' ∉ a) :
    splitSlash (a ++ '/' :: b) = a :: splitSlash b := by
  induction a with
  | nil => simp [splitSlash]
  | cons c rest ih =>
    have hc : ¬ c = '/' := fun e => h (by simp [e])
    have hr : '/' ∉ rest := fun e => h (List.mem_cons_of_mem c e)
    simp only [List.cons_append, splitSlash, hc, if_false, List.append_eq]
    rw [ih hr]

theorem splitSlash_joinSegs (p : List String) (hne : p ≠ [])
    (hs : ∀ s ∈ p, '/' ∉ s.data) :
    splitSlash (joinSegs p) = p.map String.data := by
  induction p with
  | nil => exact absurd rfl hne
  | cons x rest ih =>
    cases rest with
    | nil =>
      simp only [joinSegs, List.map_cons, List.map_nil]
      exact splitSlash_no_slash x.data (hs x (List.mem_cons_self _ _))
    | cons y ys =>
      have hx : '/' ∉ x.data := hs x (List.mem_cons_self _ _)
      have hrest : ∀ s ∈ y :: ys, '/' ∉ s.data :=
        fun s hsm => hs s (List.mem_cons_of_mem x hsm)
      show splitSlash (x.data ++ '/' :: joinSegs (y :: ys)) = _
      rw [splitSlash_append x.data _ hx, ih (by simp) hrest]
      rfl

/-- Claim C7, amended: parsing the display form round-trips on every path
with at least one segment whose segments contain no `'/'` character (every
path the engine forms from a volume name and directory entries is of this
shape).  The empty path and slash-carrying segments are refuted by
`from_to_str_display_counterexample`. -/
theorem from_to_str_display_roundtrip (p : NullFsPath) (hne : p ≠ [])
    (hs : ∀ s ∈ p, '/' ∉ s.data) :
    NullFsPath.from_to_str (NullFsPath.display p) = Except.ok p := by
  have hstep : NullFsPath.from_to_str (NullFsPath.display p) =
      match splitSlash ('@' :: '/' :: joinSegs p) with
      | [] => Except.error "Unexpected empty path"
      | first :: rest =>
        match first with
        | '@' :: _ => Except.ok (rest.map fun cs => String.mk cs)
        | _ => Except.error "Path expected to start with at slash" := rfl
  have h1 : splitSlash ('@' :: '/' :: joinSegs p) = ['@'] :: splitSlash (joinSegs p) := rfl
  rw [hstep, h1, splitSlash_joinSegs p hne hs]
  show Except.ok ((p.map String.data).map fun cs => String.mk cs) = Except.ok p
  rw [List.map_map]
  have hid : p.map ((fun cs => String.mk cs) ∘ String.data) = p.map id :=
    List.map_congr_left (fun s _ => rfl)
  rw [hid, List.map_id]

/-- Claim C7, witness for the amended round-trip at `["v", "a.txt"]`. -/
theorem from_to_str_display_witness :
    (["v", "a.txt"] : NullFsPath) ≠ [] ∧
      NullFsPath.from_to_str (NullFsPath.display ["v", "a.txt"]) =
        Except.ok (["v", "a.txt"] : NullFsPath) :=
  ⟨by decide, from_to_str_display_roundtrip ["v", "a.txt"] (by decide) (by decide)⟩

/-- Claim C7, counterexample to the original claim, which quantifies over
every segment sequence: the empty path displays as `"@/"`, which parses back
to the one-segment path `[""]`; and a segment containing a slash displays
indistinguishably from two segments. -/
theorem from_to_str_display_counterexample :
    NullFsPath.from_to_str (NullFsPath.display ([] : NullFsPath)) ≠
        Except.ok ([] : NullFsPath) ∧
      NullFsPath.from_to_str (NullFsPath.display (["a/b"] : NullFsPath)) ≠
        Except.ok (["a/b"] : NullFsPath) := by
  refine ⟨by decide, by decide⟩

/-! ## Synchronizer startup (claim C8) -/

theorem resolveVol2Relay_nil_iff (c : NodeConfig)
    (ps : List (List (LocalVolumeFs × ShareNodeRef)))
    (h : resolveVol2Relay c = Except.ok ps) : ps = [] ↔ c.volumes = [] := by
  unfold resolveVol2Relay at h
  cases hv : c.volumes with
  | nil =>
    rw [hv] at h
    simp only [List.mapM_nil] at h
    cases h
    simp
  | cons v vs =>
    rw [hv] at h
    rw [List.mapM_cons] at h
    cases hfa : resolveVolume c v.1 v.2 with
    | error e =>
      rw [hfa] at h
      exact absurd h (by simp [Bind.bind, Except.bind])
    | ok b =>
      rw [hfa] at h
      cases hrest : vs.mapM (fun e => resolveVolume c e.1 e.2) with
      | error e =>
        rw [hrest] at h
        exact absurd h (by simp [Bind.bind, Except.bind])
      | ok bs =>
        rw [hrest] at h
        simp only [Bind.bind, Except.bind, Pure.pure, Except.pure, Except.ok.injEq] at h
        subst h
        simp

/-- Claim C8, amended: when alias resolution succeeds, startup fails with
the `Resolved no relays` error if and only if the configuration has no
volumes at all — the `is_empty` check inspects the outer per-volume list
`vol2relay`, not the flattened pair list, so a configuration whose volumes
all have empty `pull_from` lists resolves zero pairs yet starts; see
`runSync_empty_pairs_counterexample`. -/
theorem runSyncStartup_fails_iff (c : NodeConfig)
    (ps : List (List (LocalVolumeFs × ShareNodeRef)))
    (h : resolveVol2Relay c = Except.ok ps) :
    startupFails c = true ↔ c.volumes = [] := by
  unfold startupFails runSyncStartup
  rw [h]
  by_cases hps : ps = []
  · simp [hps, (resolveVol2Relay_nil_iff c ps h).mp hps]
  · have hvol : ¬ c.volumes = [] :=
      fun hv => hps ((resolveVol2Relay_nil_iff c ps h).mpr hv)
    simp [hps, hvol, List.isEmpty_iff]

/-- Claim C8, witness for the amended theorem at a configuration with one
volume pulling from one resolvable relay. -/
theorem runSyncStartup_fails_iff_witness :
    (startupFails cfgResolved = true ↔ cfgResolved.volumes = []) :=
  runSyncStartup_fails_iff cfgResolved
    [[({ name := "v", root := "/data" }, { name := "r", relay := exRelay })]]
    (by decide)

/-- Claim C8, counterexample to the original claim: `cfgEmptyPull` has one
volume with an empty `pull_from`, so the resolved pair list is empty, yet
startup does not fail — `vol2relay` is the non-empty outer list `[[]]`. -/
theorem runSync_empty_pairs_counterexample :
    startupFails cfgEmptyPull = false ∧ resolvedFlatPairs cfgEmptyPull = [] :=
  ⟨by decide, by decide⟩

/-! ## The local hash read loop (claim C10) -/

theorem hashLoop_eq_append :
    ∀ (reads : List (Except String (List Nat))) (acc : List Nat),
      hashLoop acc reads = acc ++ bytesBeforeFirstFailure reads := by
  intro reads
  induction reads with
  | nil => intro acc; simp [hashLoop, bytesBeforeFirstFailure]
  | cons r rest ih =>
    intro acc
    cases r with
    | error e => simp [hashLoop, bytesBeforeFirstFailure]
    | ok chunk =>
      by_cases hc : chunk.isEmpty
      · simp [hashLoop, bytesBeforeFirstFailure, hc]
      · simp [hashLoop, bytesBeforeFirstFailure, hc, ih]

/-- Claim C10: the file branch of `LocalVolume::hash` never surfaces a read
error — the `while let Ok(n)` loop leaves the loop on the first `Err` (or on
`n == 0`) and the function unconditionally returns `Ok` of the digest of
exactly the bytes streamed up to that point (`bytesBeforeFirstFailure`). -/
theorem hashFile_swallows_read_errors (reads : List (Except String (List Nat))) :
    LocalVolume.hashFile reads = Except.ok (bytesBeforeFirstFailure reads) := by
  unfold LocalVolume.hashFile
  rw [hashLoop_eq_append reads []]
  rfl

/-! ## `swap_remove` lemmas -/

theorem getLast?_none (l : List α) (h : l.getLast? = none) : l = [] := by
  cases l with
  | nil => rfl
  | cons a as_ =>
    rw [getLast?_cons_or] at h
    cases has : as_.getLast? with
    | none => rw [has] at h; simp [Option.none_or] at h
    | some b => rw [has] at h; simp [Option.or] at h

theorem getLast_cons_perm (rest : List α) (last : α)
    (h : rest.getLast? = some last) : (last :: rest.dropLast).Perm rest := by
  induction rest generalizing last with
  | nil => simp at h
  | cons e rs ih =>
    cases rs with
    | nil =>
      simp at h
      subst h
      simp
    | cons f rs2 =>
      rw [List.getLast?_cons_cons] at h
      have hperm := ih last h
      have h1 : (last :: e :: (f :: rs2).dropLast).Perm (e :: last :: (f :: rs2).dropLast) :=
        List.Perm.swap e last _
      have h2 : (e :: last :: (f :: rs2).dropLast).Perm (e :: f :: rs2) :=
        List.Perm.cons e hperm
      have h3 := h1.trans h2
      simpa [List.dropLast] using h3

theorem imSwapRemove_perm [DecidableEq κ] (k : κ) (l : List (κ × ν)) :
    ∃ t : List (κ × ν), (imSwapRemove k l).Perm t ∧ t.Sublist l := by
  induction l with
  | nil => exact ⟨[], by simp [imSwapRemove], List.Sublist.refl []⟩
  | cons e rest ih =>
    by_cases he : e.1 = k
    · cases hl : rest.getLast? with
      | none =>
        refine ⟨[], ?_, List.nil_sublist _⟩
        simp [imSwapRemove, he, hl]
      | some last =>
        refine ⟨rest, ?_, List.sublist_cons_self e rest⟩
        simp only [imSwapRemove, he, if_true, hl]
        exact getLast_cons_perm rest last hl
    · obtain ⟨t, hp, hs⟩ := ih
      refine ⟨e :: t, ?_, List.Sublist.cons₂ e hs⟩
      simp only [imSwapRemove, he, if_false]
      exact List.Perm.cons e hp

theorem imSwapRemove_keys_subset [DecidableEq κ] (k : κ) (l : List (κ × ν)) :
    imKeys (imSwapRemove k l) ⊆ imKeys l := by
  obtain ⟨t, hp, hs⟩ := imSwapRemove_perm k l
  intro x hx
  have hx2 : x ∈ imKeys t := (hp.map Prod.fst).mem_iff.mp hx
  exact (hs.map Prod.fst).subset hx2

theorem imSwapRemove_not_mem [DecidableEq κ] (k : κ) (l : List (κ × ν))
    (hnd : (imKeys l).Nodup) : k ∉ imKeys (imSwapRemove k l) := by
  induction l with
  | nil => simp [imSwapRemove, imKeys]
  | cons e rest ih =>
    simp only [imKeys, List.map_cons, List.nodup_cons] at hnd
    by_cases he : e.1 = k
    · cases hl : rest.getLast? with
      | none => simp [imSwapRemove, he, hl, imKeys]
      | some last =>
        simp only [imSwapRemove, he, if_true, hl]
        intro hk
        have hperm : (imKeys (last :: rest.dropLast)).Perm (imKeys rest) :=
          (getLast_cons_perm rest last hl).map Prod.fst
        have : k ∈ imKeys rest := hperm.mem_iff.mp hk
        exact hnd.1 (he ▸ this)
    · simp only [imSwapRemove, he, if_false, imKeys, List.map_cons, List.mem_cons]
      rintro (h1 | h2)
      · exact he h1.symm
      · exact ih hnd.2 h2

theorem imSwapRemove_nodup [DecidableEq κ] (k : κ) (l : List (κ × ν))
    (hnd : (imKeys l).Nodup) : (imKeys (imSwapRemove k l)).Nodup := by
  induction l with
  | nil => simp [imSwapRemove, imKeys]
  | cons e rest ih =>
    simp only [imKeys, List.map_cons, List.nodup_cons] at hnd
    by_cases he : e.1 = k
    · cases hl : rest.getLast? with
      | none => simp [imSwapRemove, he, hl, imKeys]
      | some last =>
        simp only [imSwapRemove, he, if_true, hl]
        have hperm : (imKeys (last :: rest.dropLast)).Perm (imKeys rest) :=
          (getLast_cons_perm rest last hl).map Prod.fst
        exact hperm.nodup_iff.mpr hnd.2
    · simp only [imSwapRemove, he, if_false, imKeys, List.map_cons, List.nodup_cons]
      refine ⟨fun hmem => hnd.1 (imSwapRemove_keys_subset k rest hmem), ih hnd.2⟩

theorem imGet_eq_none_iff [DecidableEq κ] (k : κ) (l : List (κ × ν)) :
    imGet k l = none ↔ k ∉ imKeys l := by
  induction l with
  | nil => simp [imGet, imKeys]
  | cons e rest ih =>
    by_cases he : e.1 = k
    · simp [imGet, he, imKeys]
    · simp only [imGet, he, if_false, imKeys, List.map_cons, List.mem_cons, ih]
      constructor
      · rintro h (h1 | h2)
        · exact he h1.symm
        · exact h h2
      · exact fun h h2 => h (Or.inr h2)

theorem imGet_eq_some_iff [DecidableEq κ] (k : κ) (v : ν) (l : List (κ × ν))
    (hnd : (imKeys l).Nodup) : imGet k l = some v ↔ (k, v) ∈ l := by
  induction l with
  | nil => simp [imGet]
  | cons e rest ih =>
    simp only [imKeys, List.map_cons, List.nodup_cons] at hnd
    by_cases he : e.1 = k
    · simp only [imGet, he, if_true, List.mem_cons]
      constructor
      · intro hv
        cases hv
        left
        rw [← he]
      · rintro (h1 | h2)
        · rw [← h1]
        · exact absurd (he ▸ List.mem_map_of_mem Prod.fst h2) hnd.1
    · simp only [imGet, he, if_false, List.mem_cons, ih hnd.2]
      constructor
      · exact fun h => Or.inr h
      · rintro (h1 | h2)
        · exact absurd (congrArg Prod.fst h1).symm he
        · exact h2

theorem imGet_perm [DecidableEq κ] (k : κ) {l l' : List (κ × ν)}
    (hnd : (imKeys l).Nodup) (hp : l.Perm l') : imGet k l = imGet k l' := by
  have hnd' : (imKeys l').Nodup := ((hp.map Prod.fst).nodup_iff).mp hnd
  cases hv : imGet k l with
  | none =>
    have := (imGet_eq_none_iff k l).mp hv
    have h2 : k ∉ imKeys l' := fun hm => this ((hp.map Prod.fst).mem_iff.mpr hm)
    exact ((imGet_eq_none_iff k l').mpr h2).symm
  | some v =>
    have := (imGet_eq_some_iff k v l hnd).mp hv
    exact ((imGet_eq_some_iff k v l' hnd').mpr (hp.mem_iff.mp this)).symm

theorem imGet_imSwapRemove_ne [DecidableEq κ] {q k : κ} (l : List (κ × ν))
    (hnd : (imKeys l).Nodup) (h : q ≠ k) :
    imGet q (imSwapRemove k l) = imGet q l := by
  induction l with
  | nil => simp [imSwapRemove]
  | cons e rest ih =>
    simp only [imKeys, List.map_cons, List.nodup_cons] at hnd
    by_cases he : e.1 = k
    · cases hl : rest.getLast? with
      | none =>
        have hre : rest = [] := getLast?_none rest hl
        subst hre
        simp only [imSwapRemove, he, if_true, hl]
        have hq : ¬ e.1 = q := fun e2 => h (e2 ▸ he ▸ rfl)
        simp [imGet, hq]
      | some last =>
        simp only [imSwapRemove, he, if_true, hl]
        have hndr : (imKeys (last :: rest.dropLast)).Nodup :=
          ((getLast_cons_perm rest last hl).map Prod.fst).nodup_iff.mpr hnd.2
        have hstep := imGet_perm q hndr (getLast_cons_perm rest last hl)
        rw [hstep]
        have hq : ¬ e.1 = q := fun e2 => h (e2 ▸ he ▸ rfl)
        simp [imGet, hq]
    · simp only [imSwapRemove, he, if_false]
      by_cases hq : e.1 = q
      · simp [imGet, hq]
      · simp [imGet, hq, ih hnd.2]

/-! ## Lemmas about `State.finalize` (claims C5, C6, C9) -/

theorem finalizeFold_fields :
    ∀ (cmds : List Command) (σ : State),
      (cmds.foldl finalizeStep σ).commands = σ.commands ∧
        (cmds.foldl finalizeStep σ).hashes = σ.hashes := by
  intro cmds
  induction cmds with
  | nil => intro σ; exact ⟨rfl, rfl⟩
  | cons c rest ih =>
    intro σ
    cases c with
    | delete f => simpa [finalizeStep] using ih _
    | write f => simpa [finalizeStep] using ih σ
    | touch f => simpa [finalizeStep] using ih σ

theorem finalizeFold_nodup :
    ∀ (cmds : List Command) (σ : State),
      (imKeys σ.store).Nodup → (imKeys σ.dirs).Nodup →
      (imKeys (cmds.foldl finalizeStep σ).store).Nodup ∧
        (imKeys (cmds.foldl finalizeStep σ).dirs).Nodup := by
  intro cmds
  induction cmds with
  | nil => intro σ h1 h2; exact ⟨h1, h2⟩
  | cons c rest ih =>
    intro σ h1 h2
    cases c with
    | delete f =>
      simpa [finalizeStep] using
        ih _ (imSwapRemove_nodup f.path σ.store h1) (imSwapRemove_nodup f.path σ.dirs h2)
    | write f => simpa [finalizeStep] using ih σ h1 h2
    | touch f => simpa [finalizeStep] using ih σ h1 h2

theorem finalizeFold_not_mem :
    ∀ (cmds : List Command) (σ : State) (q : NullFsPath),
      (q ∉ imKeys σ.store → q ∉ imKeys (cmds.foldl finalizeStep σ).store) ∧
        (q ∉ imKeys σ.dirs → q ∉ imKeys (cmds.foldl finalizeStep σ).dirs) := by
  intro cmds
  induction cmds with
  | nil => intro σ q; exact ⟨id, id⟩
  | cons c rest ih =>
    intro σ q
    cases c with
    | delete f =>
      refine ⟨fun hq => ?_, fun hq => ?_⟩
      · exact (ih _ q).1 fun hm => hq (imSwapRemove_keys_subset f.path σ.store hm)
      · exact (ih _ q).2 fun hm => hq (imSwapRemove_keys_subset f.path σ.dirs hm)
    | write f => exact ih σ q
    | touch f => exact ih σ q

theorem finalizeFold_removes :
    ∀ (cmds : List Command) (σ : State),
      (imKeys σ.store).Nodup → (imKeys σ.dirs).Nodup →
      ∀ f : File, Command.delete f ∈ cmds →
        f.path ∉ imKeys (cmds.foldl finalizeStep σ).store ∧
          f.path ∉ imKeys (cmds.foldl finalizeStep σ).dirs := by
  intro cmds
  induction cmds with
  | nil => intro σ _ _ f hf; simp at hf
  | cons c rest ih =>
    intro σ h1 h2 f hf
    rcases List.mem_cons.mp hf with he | hm
    · subst he
      simp only [List.foldl_cons, finalizeStep]
      constructor
      · exact (finalizeFold_not_mem rest _ f.path).1
          (by simpa using imSwapRemove_not_mem f.path σ.store h1)
      · exact (finalizeFold_not_mem rest _ f.path).2
          (by simpa using imSwapRemove_not_mem f.path σ.dirs h2)
    · cases c with
      | delete g =>
        simpa [finalizeStep] using
          ih _ (imSwapRemove_nodup g.path σ.store h1)
            (imSwapRemove_nodup g.path σ.dirs h2) f hm
      | write g => simpa [finalizeStep] using ih σ h1 h2 f hm
      | touch g => simpa [finalizeStep] using ih σ h1 h2 f hm

theorem mem_deletedPaths_tail (c : Command) (rest : List Command) (q : NullFsPath)
    (h : q ∈ deletedPaths rest) : q ∈ deletedPaths (c :: rest) := by
  cases c with
  | delete g =>
    simp only [deletedPaths, List.filterMap_cons]
    exact List.mem_cons_of_mem _ h
  | write g => simpa [deletedPaths, List.filterMap_cons] using h
  | touch g => simpa [deletedPaths, List.filterMap_cons] using h

theorem mem_deletedPaths_head (g : File) (rest : List Command) :
    g.path ∈ deletedPaths (Command.delete g :: rest) := by
  simp [deletedPaths, List.filterMap_cons]

theorem finalizeFold_get_ne :
    ∀ (cmds : List Command) (σ : State) (q : NullFsPath),
      (imKeys σ.store).Nodup → (imKeys σ.dirs).Nodup →
      q ∉ deletedPaths cmds →
      imGet q (cmds.foldl finalizeStep σ).store = imGet q σ.store ∧
        imGet q (cmds.foldl finalizeStep σ).dirs = imGet q σ.dirs := by
  intro cmds
  induction cmds with
  | nil => intro σ q _ _ _; exact ⟨rfl, rfl⟩
  | cons c rest ih =>
    intro σ q h1 h2 hq
    have hqrest : q ∉ deletedPaths rest :=
      fun e => hq (mem_deletedPaths_tail c rest q e)
    cases c with
    | delete g =>
      have hqg : q ≠ g.path :=
        fun e => hq (e ▸ mem_deletedPaths_head g rest)
      have hstep := ih ({ σ with
          store := imSwapRemove g.path σ.store
          dirs := imSwapRemove g.path σ.dirs })
        q (imSwapRemove_nodup g.path σ.store h1)
        (imSwapRemove_nodup g.path σ.dirs h2) hqrest
      simp only [List.foldl_cons, finalizeStep]
      refine ⟨?_, ?_⟩
      · exact hstep.1.trans (imGet_imSwapRemove_ne σ.store h1 hqg)
      · exact hstep.2.trans (imGet_imSwapRemove_ne σ.dirs h2 hqg)
    | write g => simpa [finalizeStep] using ih σ q h1 h2 hqrest
    | touch g => simpa [finalizeStep] using ih σ q h1 h2 hqrest

/-- Claim C5: after `State::finalize`, the command set never contains a
`Touch{f}` together with a `Write{g}` on the same path — the retain pass
drops every `Touch` whose path is among the `Write` paths collected into
`created`, and the pass never removes a `Write`.  In particular the `Touch`
that `capture_path` emits alongside the `Write` of an `all_new` entry is
removed.  Proved for every state, hence for the state of every capture. -/
theorem finalize_no_touch_write (s : State) (f g : File)
    (ht : Command.touch f ∈ (State.finalize s).commands)
    (hw : Command.write g ∈ (State.finalize s).commands) :
    f.path ≠ g.path := by
  have hcmds := (finalizeFold_fields s.commands s).1
  simp only [State.finalize, hcmds] at ht hw
  have hf := (List.mem_filter.mp ht).2
  have hgmem := (List.mem_filter.mp hw).1
  have hfnot : f.path ∉ createdPaths s.commands := by
    simpa using hf
  have hgcre : g.path ∈ createdPaths s.commands := by
    simp only [createdPaths, List.mem_filterMap]
    exact ⟨Command.write g, hgmem, rfl⟩
  intro e
  exact hfnot (e ▸ hgcre)

/-- Claim C5, witness: a state carrying `Write exFileB` and `Touch exFileX`
with distinct paths keeps both, and the theorem yields their inequality. -/
theorem finalize_no_touch_write_witness :
    Command.touch exFileX ∈ (State.finalize exStateTW).commands ∧
      Command.write exFileB ∈ (State.finalize exStateTW).commands ∧
      exFileX.path ≠ exFileB.path :=
  ⟨by decide, by decide,
    finalize_no_touch_write exStateTW exFileX exFileB (by decide) (by decide)⟩

/-- Claim C6: after `State::finalize`, the path of every `Delete` left in
the command set is absent from both the `store` and the `dirs` maps — the
command loop swap-removes exactly these keys and nothing in `finalize`
re-inserts a key.  The `Nodup` hypotheses are the representation invariant
of the Rust `IndexMap` (keys are unique by construction). -/
theorem finalize_delete_closure (s : State) (f : File)
    (hs : (imKeys s.store).Nodup) (hd : (imKeys s.dirs).Nodup)
    (hmem : Command.delete f ∈ (State.finalize s).commands) :
    f.path ∉ imKeys (State.finalize s).store ∧
      f.path ∉ imKeys (State.finalize s).dirs := by
  have hcmds := (finalizeFold_fields s.commands s).1
  simp only [State.finalize, hcmds] at hmem ⊢
  have hdel : Command.delete f ∈ s.commands := (List.mem_filter.mp hmem).1
  exact finalizeFold_removes s.commands s hs hd f hdel

/-- Claim C6, witness at a one-delete state. -/
theorem finalize_delete_closure_witness :
    (imKeys exStateDel.store).Nodup ∧
      exFileX.path ∉ imKeys (State.finalize exStateDel).store ∧
      exFileX.path ∉ imKeys (State.finalize exStateDel).dirs := by
  refine ⟨by decide, ?_⟩
  exact finalize_delete_closure exStateDel exFileX (by decide) (by decide) (by decide)

/-- Claim C9: `State::finalize` removes only the exact `Delete` paths from
`store` and `dirs`; every other key — in particular every key lying below a
deleted directory — keeps its exact binding.  There is no transitive cleanup
of descendants. -/
theorem finalize_removes_only_exact_paths (s : State) (q : NullFsPath)
    (hs : (imKeys s.store).Nodup) (hd : (imKeys s.dirs).Nodup)
    (hq : q ∉ deletedPaths s.commands) :
    imGet q (State.finalize s).store = imGet q s.store ∧
      imGet q (State.finalize s).dirs = imGet q s.dirs := by
  simp only [State.finalize]
  exact finalizeFold_get_ne s.commands s q hs hd hq

/-- Claim C9, witness: deleting the directory `@/v/a` leaves the store entry
of the file `@/v/a/x` below it untouched. -/
theorem finalize_removes_only_exact_paths_witness :
    (["v", "a", "x"] : NullFsPath) ∉ deletedPaths exStateDelDir.commands ∧
      imGet (["v", "a", "x"] : NullFsPath) (State.finalize exStateDelDir).store =
        imGet (["v", "a", "x"] : NullFsPath) exStateDelDir.store ∧
      imGet (["v", "a", "x"] : NullFsPath) (State.finalize exStateDelDir).dirs =
        imGet (["v", "a", "x"] : NullFsPath) exStateDelDir.dirs := by
  refine ⟨by decide, ?_⟩
  exact finalize_removes_only_exact_paths exStateDelDir ["v", "a", "x"]
    (by decide) (by decide) (by decide)

/-! ## Path-order lemmas for the walk -/

theorem pathLeads_refl (p : NullFsPath) : PathLeads p p :=
  ⟨[], List.append_nil p⟩

theorem pathLeads_trans {p q r : NullFsPath}
    (h1 : PathLeads p q) (h2 : PathLeads q r) : PathLeads p r := by
  obtain ⟨a, ha⟩ := h1
  obtain ⟨b, hb⟩ := h2
  exact ⟨a ++ b, by rw [← List.append_assoc, ha, hb]⟩

theorem pathLeads_child (p : NullFsPath) (n : String) : PathLeads p (p ++ [n]) :=
  ⟨[n], rfl⟩

theorem pathLeads_length {p q : NullFsPath} (h : PathLeads p q) :
    p.length ≤ q.length := by
  obtain ⟨a, ha⟩ := h
  rw [← ha, List.length_append]
  omega

theorem pathLeads_eq_of_length {p q : NullFsPath} (h : PathLeads p q)
    (hl : p.length = q.length) : p = q := by
  obtain ⟨a, ha⟩ := h
  have : a = [] := by
    have := congrArg List.length ha
    rw [List.length_append] at this
    have : a.length = 0 := by omega
    exact List.length_eq_zero.mp this
  rw [← ha, this, List.append_nil]

theorem pathLeads_unique_len {a b q : NullFsPath} (h1 : PathLeads a q)
    (h2 : PathLeads b q) (hl : a.length = b.length) : a = b := by
  obtain ⟨r1, hr1⟩ := h1
  obtain ⟨r2, hr2⟩ := h2
  have hq : a ++ r1 = b ++ r2 := by rw [hr1, hr2]
  have h3 := congrArg (List.take a.length) hq
  rw [List.take_left] at h3
  rw [h3, hl, List.take_left]

theorem child_ne_self (p : NullFsPath) (n : String) : p ++ [n] ≠ p := by
  intro h
  have := congrArg List.length h
  rw [List.length_append] at this
  simp at this

theorem append_singleton_inj {p : NullFsPath} {a b : String}
    (h : p ++ [a] = p ++ [b]) : a = b := by
  have := List.append_cancel_left h
  simpa using this

theorem pathLeads_sibling {p : NullFsPath} {m1 m2 : String} {q : NullFsPath}
    (h1 : PathLeads (p ++ [m1]) q) (h2 : PathLeads (p ++ [m2]) q) : m1 = m2 := by
  have := pathLeads_unique_len h1 h2 (by simp)
  exact append_singleton_inj this

theorem not_pathLeads_of_child {path q : NullFsPath} {n : String}
    (h : ¬ PathLeads path q) : ¬ PathLeads (path ++ [n]) q :=
  fun h2 => h (pathLeads_trans (pathLeads_child path n) h2)

theorem pathLeads_child_of_append {p w : NullFsPath} {m n : String}
    (h : PathLeads (p ++ [m]) w) : PathLeads (p ++ [m]) (w ++ [n]) :=
  pathLeads_trans h (pathLeads_child w n)

/-! ## Basic facts about the index operations used by the walk -/

theorem imGet_mem [DecidableEq κ] {k : κ} {v : ν} {l : List (κ × ν)}
    (h : imGet k l = some v) : (k, v) ∈ l := by
  induction l with
  | nil => simp [imGet] at h
  | cons e rest ih =>
    by_cases he : e.1 = k
    · simp only [imGet, he, if_true, Option.some.injEq] at h
      subst h
      exact List.mem_cons.mpr (Or.inl (by rw [← he]))
    · simp only [imGet, he, if_false] at h
      exact List.mem_cons_of_mem e (ih h)

theorem imInsert_get_self [DecidableEq κ] {k : κ} {v : ν} {l : List (κ × ν)}
    (h : imGet k l = some v) : imInsert k v l = l := by
  induction l with
  | nil => simp [imGet] at h
  | cons e rest ih =>
    by_cases he : e.1 = k
    · simp only [imGet, he, if_true, Option.some.injEq] at h
      subst h
      simp only [imInsert, he, if_true]
      rw [← he]
    · simp only [imGet, he, if_false] at h
      simp only [imInsert, he, if_false]
      rw [ih h]

theorem mem_keys_imInsert [DecidableEq κ] (x k : κ) (v : ν) (l : List (κ × ν)) :
    x ∈ imKeys (imInsert k v l) ↔ x = k ∨ x ∈ imKeys l := by
  induction l with
  | nil => simp [imInsert, imKeys]
  | cons e rest ih =>
    by_cases he : e.1 = k
    · simp only [imInsert, he, if_true, imKeys, List.map_cons, List.mem_cons]
      tauto
    · simp only [imInsert, he, if_false, imKeys, List.map_cons, List.mem_cons]
      rw [show (imInsert k v rest).map Prod.fst = imKeys (imInsert k v rest) from rfl, ih]
      tauto

theorem imInsert_nodup [DecidableEq κ] (k : κ) (v : ν) (l : List (κ × ν))
    (h : (imKeys l).Nodup) : (imKeys (imInsert k v l)).Nodup := by
  induction l with
  | nil => simp [imInsert, imKeys]
  | cons e rest ih =>
    simp only [imKeys, List.map_cons, List.nodup_cons] at h
    by_cases he : e.1 = k
    · simp only [imInsert, he, if_true, imKeys, List.map_cons, List.nodup_cons]
      exact ⟨he ▸ h.1, h.2⟩
    · simp only [imInsert, he, if_false, imKeys, List.map_cons, List.nodup_cons]
      refine ⟨fun hm => ?_, ih h.2⟩
      rcases (mem_keys_imInsert e.1 k v rest).mp hm with h1 | h2
      · exact he h1
      · exact h.1 h2

/-! ## Structure of the sorted listing `currPairs` -/

theorem isInsertByFile_mem {acc : List (File × FsTree)} {y x : File × FsTree}
    (h : x ∈ isInsertByFile acc y) : x ∈ acc ∨ x = y := by
  unfold isInsertByFile at h
  split at h
  · exact Or.inl h
  · rcases List.mem_append.mp h with h1 | h2
    · exact Or.inl h1
    · exact Or.inr (by simpa using h2)

theorem isFromIterPairs_subset :
    ∀ (l acc : List (File × FsTree)) (x : File × FsTree),
      x ∈ l.foldl isInsertByFile acc → x ∈ acc ∨ x ∈ l := by
  intro l
  induction l with
  | nil => intro acc x h; exact Or.inl h
  | cons y rest ih =>
    intro acc x h
    rcases ih (isInsertByFile acc y) x h with h1 | h2
    · rcases isInsertByFile_mem h1 with h3 | h4
      · exact Or.inl h3
      · exact Or.inr (h4 ▸ List.mem_cons_self _ _)
    · exact Or.inr (List.mem_cons_of_mem y h2)

theorem currPairs_mem {path : NullFsPath} {t : FsTree} {fc : File × FsTree}
    (h : fc ∈ currPairs path t) :
    ∃ n, (n, fc.2) ∈ t.entries ∧ fc.1 = mkFile (path ++ [n]) fc.2.stat := by
  unfold currPairs at h
  have h2 : fc ∈ isFromIterPairs (dirPairs path t) :=
    (List.perm_insertionSort pairLe _).mem_iff.mp h
  have h3 : fc ∈ dirPairs path t := by
    rcases isFromIterPairs_subset (dirPairs path t) [] fc h2 with h4 | h5
    · simp at h4
    · exact h5
  unfold dirPairs at h3
  rcases List.mem_map.mp h3 with ⟨e, he, hfc⟩
  refine ⟨e.1, ?_, ?_⟩
  · rw [← hfc]
    exact he
  · rw [← hfc]

theorem currPairs_child {path : NullFsPath} {t : FsTree} {fc : File × FsTree}
    (h : fc ∈ currPairs path t) : ∃ n, fc.1.path = path ++ [n] := by
  rcases currPairs_mem h with ⟨n, _, hf⟩
  exact ⟨n, by rw [hf]; rfl⟩

theorem isInsertByFile_pairwise {acc : List (File × FsTree)} {y : File × FsTree}
    (h : acc.Pairwise fun a b => a.1 ≠ b.1) :
    (isInsertByFile acc y).Pairwise fun a b => a.1 ≠ b.1 := by
  unfold isInsertByFile
  by_cases hany : (acc.any fun z => decide (z.1 = y.1)) = true
  · rw [if_pos hany]
    exact h
  · rw [if_neg hany]
    rw [List.pairwise_append]
    refine ⟨h, List.pairwise_singleton _ _, ?_⟩
    intro a ha b hb
    simp only [List.mem_singleton] at hb
    subst hb
    intro he
    exact hany (List.any_eq_true.mpr ⟨a, ha, by simp [he]⟩)

theorem isFromIterPairs_pairwise :
    ∀ (l acc : List (File × FsTree)),
      (acc.Pairwise fun a b => a.1 ≠ b.1) →
      ((l.foldl isInsertByFile acc).Pairwise fun a b => a.1 ≠ b.1) := by
  intro l
  induction l with
  | nil => intro acc h; exact h
  | cons y rest ih =>
    intro acc h
    exact ih (isInsertByFile acc y) (isInsertByFile_pairwise h)

theorem entries_assoc_unique :
    ∀ (entries : List (String × FsTree)),
      ((entries.map Prod.fst).Nodup) →
      ∀ (n : String) (c1 c2 : FsTree),
        (n, c1) ∈ entries → (n, c2) ∈ entries → c1 = c2 := by
  intro entries
  induction entries with
  | nil => intro _ n c1 c2 h1 _; simp at h1
  | cons e rest ih =>
    intro hnd n c1 c2 h1 h2
    simp only [List.map_cons, List.nodup_cons] at hnd
    rcases List.mem_cons.mp h1 with he1 | hm1 <;>
      rcases List.mem_cons.mp h2 with he2 | hm2
    · exact congrArg Prod.snd (he1.trans he2.symm)
    · exfalso
      have hne : n = e.1 := congrArg Prod.fst he1
      exact hnd.1 (hne ▸ List.mem_map_of_mem Prod.fst hm2)
    · exfalso
      have hne : n = e.1 := congrArg Prod.fst he2
      exact hnd.1 (hne ▸ List.mem_map_of_mem Prod.fst hm1)
    · exact ih hnd.2 n c1 c2 hm1 hm2

theorem currPairs_pairwise_paths {path : NullFsPath} {t : FsTree}
    (hnd : (t.entries.map Prod.fst).Nodup) :
    (currPairs path t).Pairwise fun a b => a.1.path ≠ b.1.path := by
  have hfiles : (currPairs path t).Pairwise fun a b => a.1 ≠ b.1 := by
    unfold currPairs
    have hbase := isFromIterPairs_pairwise (dirPairs path t) [] (List.Pairwise.nil)
    exact ((List.perm_insertionSort pairLe _).pairwise_iff
      (fun h e => (h e.symm : False).elim)).mpr hbase
  refine List.Pairwise.imp_of_mem ?_ hfiles
  intro a b ha hb hne he
  rcases currPairs_mem ha with ⟨na, hea, hfa⟩
  rcases currPairs_mem hb with ⟨nb, heb, hfb⟩
  have hpa : a.1.path = path ++ [na] := by rw [hfa]; rfl
  have hpb : b.1.path = path ++ [nb] := by rw [hfb]; rfl
  have hn : na = nb := append_singleton_inj (by rw [← hpa, ← hpb, he])
  have hc : a.2 = b.2 := entries_assoc_unique t.entries hnd na a.2 b.2 hea (hn ▸ heb)
  exact hne (by rw [hfa, hfb, ← hn, hc])

theorem treeOK_succ {fuel : Nat} {t : FsTree} (h : treeOK (fuel + 1) t = true) :
    (t.entries.map Prod.fst).Nodup ∧ ∀ e ∈ t.entries, treeOK fuel e.2 = true := by
  simp only [treeOK, Bool.and_eq_true, decide_eq_true_eq, List.all_eq_true] at h
  exact h

/-! ## Lemmas about `State.diffPrev` -/

theorem getLast?_mem {l : List α} {a : α} (h : l.getLast? = some a) : a ∈ l := by
  induction l with
  | nil => simp at h
  | cons x xs ih =>
    rw [getLast?_cons_or] at h
    cases hx : xs.getLast? with
    | none =>
      rw [hx] at h
      simp only [Option.none_or, Option.some.injEq] at h
      exact h ▸ List.mem_cons_self _ _
    | some b =>
      rw [hx] at h
      have : b = a := by simpa [Option.or] using h
      exact List.mem_cons_of_mem x (ih (this ▸ hx))

theorem mem_isInsert [DecidableEq α] {x y : α} {l : List α} :
    x ∈ isInsert l y ↔ x ∈ l ∨ x = y := by
  unfold isInsert
  by_cases hy : y ∈ l
  · rw [if_pos hy]
    constructor
    · exact Or.inl
    · rintro (h1 | h2)
      · exact h1
      · exact h2 ▸ hy
  · rw [if_neg hy]
    simp

theorem mem_foldl_isInsert [DecidableEq α] :
    ∀ (l acc : List α) (x : α), x ∈ l.foldl isInsert acc ↔ x ∈ acc ∨ x ∈ l := by
  intro l
  induction l with
  | nil => intro acc x; simp
  | cons y rest ih =>
    intro acc x
    simp only [List.foldl_cons, ih, mem_isInsert, List.mem_cons]
    tauto

theorem mem_isFromIter [DecidableEq α] {x : α} {l : List α} :
    x ∈ isFromIter l ↔ x ∈ l := by
  unfold isFromIter
  rw [mem_foldl_isInsert]
  simp

theorem filter_not_mem_self [DecidableEq α] (l : List α) :
    (l.filter fun k => decide (k ∉ l)) = [] :=
  List.filter_eq_nil_iff.mpr (by intro a ha; simp [ha])

theorem insertCommand_fields (s : State) (c : Command) :
    (s.insertCommand c).store = s.store ∧ (s.insertCommand c).dirs = s.dirs ∧
      (s.insertCommand c).hashes = s.hashes :=
  ⟨rfl, rfl, rfl⟩

theorem foldl_insertCommand_fields {β} (mk : β → Command) :
    ∀ (l : List β) (acc : State),
      (l.foldl (fun a x => a.insertCommand (mk x)) acc).store = acc.store ∧
      (l.foldl (fun a x => a.insertCommand (mk x)) acc).dirs = acc.dirs ∧
      (l.foldl (fun a x => a.insertCommand (mk x)) acc).hashes = acc.hashes := by
  intro l
  induction l with
  | nil => intro acc; exact ⟨rfl, rfl, rfl⟩
  | cons y rest ih => intro acc; simpa using ih (acc.insertCommand (mk y))

theorem foldl_insertCommand_mem {β} (mk : β → Command) :
    ∀ (l : List β) (acc : State) (c : Command),
      c ∈ (l.foldl (fun a x => a.insertCommand (mk x)) acc).commands →
        c ∈ acc.commands ∨ ∃ x ∈ l, c = mk x := by
  intro l
  induction l with
  | nil => intro acc c h; exact Or.inl h
  | cons y rest ih =>
    intro acc c h
    rcases ih (acc.insertCommand (mk y)) c h with h1 | h2
    · rcases mem_isInsert.mp h1 with h3 | h4
      · exact Or.inl h3
      · exact Or.inr ⟨y, List.mem_cons_self _ _, h4⟩
    · rcases h2 with ⟨x, hx, he⟩
      exact Or.inr ⟨x, List.mem_cons_of_mem y hx, he⟩

theorem foldl_insertCommand_mono {β} (mk : β → Command) :
    ∀ (l : List β) (acc : State) (c : Command),
      c ∈ acc.commands → c ∈ (l.foldl (fun a x => a.insertCommand (mk x)) acc).commands := by
  intro l
  induction l with
  | nil => intro acc c h; exact h
  | cons y rest ih =>
    intro acc c h
    exact ih (acc.insertCommand (mk y)) c (mem_isInsert.mpr (Or.inl h))

theorem pathMapOf_get (k : NullFsPath) :
    ∀ (files : List File) (m : List (NullFsPath × File)),
      imGet k (files.foldl (fun m f => imInsert f.path f m) m) =
        ((files.filter fun f => decide (f.path = k)).getLast?).or (imGet k m) := by
  intro files
  induction files with
  | nil => intro m; simp [Option.none_or]
  | cons f rest ih =>
    intro m
    simp only [List.foldl_cons, List.filter_cons]
    by_cases hf : f.path = k
    · rw [ih, hf, imGet_imInsert_self]
      rw [if_pos (by simp)]
      rw [getLast?_cons_or, Option.or_assoc]
      rfl
    · rw [ih, imGet_imInsert_ne f m (fun e => hf e.symm)]
      simp [hf]

theorem pathMapOf_get_some {k : NullFsPath} {files : List File}
    (h : k ∈ files.map File.path) :
    ∃ v, imGet k (pathMapOf files) = some v ∧ v ∈ files ∧ v.path = k := by
  unfold pathMapOf
  rw [pathMapOf_get]
  cases hfl : (files.filter fun f => decide (f.path = k)).getLast? with
  | none =>
    exfalso
    have hnil := getLast?_none _ hfl
    rcases List.mem_map.mp h with ⟨f, hf, hfk⟩
    have : f ∈ files.filter fun f => decide (f.path = k) :=
      List.mem_filter.mpr ⟨hf, by simp [hfk]⟩
    rw [hnil] at this
    simp at this
  | some v =>
    have hv := getLast?_mem hfl
    have hvf := List.mem_filter.mp hv
    exact ⟨v, rfl, hvf.1, by simpa using hvf.2⟩

theorem diffPrev_fields (s : State) (path : NullFsPath) (curr : List File) :
    (s.diffPrev path curr).2.store = s.store ∧
      (s.diffPrev path curr).2.dirs = s.dirs ∧
      (s.diffPrev path curr).2.hashes = s.hashes := by
  unfold State.diffPrev
  cases hget : imGet path s.dirs with
  | none => exact ⟨rfl, rfl, rfl⟩
  | some prev =>
    have h1 := foldl_insertCommand_fields
      (fun k => Command.write ((imGet k (pathMapOf curr)).getD panicFile))
      ((isFromIter (curr.map File.path)).filter fun k =>
        decide (k ∉ isFromIter (prev.map File.path))) s
    have h2 := foldl_insertCommand_fields
      (fun k => Command.delete ((imGet k (pathMapOf prev)).getD panicFile))
      ((isFromIter (prev.map File.path)).filter fun k =>
        decide (k ∉ isFromIter (curr.map File.path)))
      (((isFromIter (curr.map File.path)).filter fun k =>
        decide (k ∉ isFromIter (prev.map File.path))).foldl
          (fun a x => a.insertCommand
            (Command.write ((imGet x (pathMapOf curr)).getD panicFile))) s)
    refine ⟨?_, ?_, ?_⟩
    · exact h2.1.trans h1.1
    · exact h2.2.1.trans h1.2.1
    · exact h2.2.2.trans h1.2.2

theorem filter_not_mem_self_paths (l : List NullFsPath) :
    (l.filter fun k => decide (k ∉ l)) = [] :=
  List.filter_eq_nil_iff.mpr (by intro a ha; simp [ha])

theorem diffPrev_self (s : State) (path : NullFsPath) (curr : List File)
    (hget : imGet path s.dirs = some curr) : s.diffPrev path curr = (false, s) := by
  simp only [State.diffPrev, hget]
  rw [filter_not_mem_self_paths (isFromIter (List.map File.path curr))]
  simp only [List.foldl_nil]

theorem diffPrev_commands (s : State) (path : NullFsPath) (curr : List File) :
    ∀ c ∈ (s.diffPrev path curr).2.commands,
      c ∈ s.commands ∨
      (∃ f, c = Command.write f) ∨
      (∃ f prev, imGet path s.dirs = some prev ∧ c = Command.delete f ∧ f ∈ prev ∧
        f.path ∉ curr.map File.path) := by
  unfold State.diffPrev
  cases hget : imGet path s.dirs with
  | none => intro c hc; exact Or.inl hc
  | some prev =>
    intro c hc
    rcases foldl_insertCommand_mem
      (fun k => Command.delete ((imGet k (pathMapOf prev)).getD panicFile)) _ _ c hc with
      h1 | h2
    · rcases foldl_insertCommand_mem
        (fun k => Command.write ((imGet k (pathMapOf curr)).getD panicFile)) _ _ c h1 with
        h3 | h4
      · exact Or.inl h3
      · rcases h4 with ⟨x, _, he⟩
        exact Or.inr (Or.inl ⟨_, he⟩)
    · rcases h2 with ⟨k, hk, he⟩
      have hkf := List.mem_filter.mp hk
      have hkprev : k ∈ prev.map File.path := mem_isFromIter.mp hkf.1
      have hkcurr : k ∉ curr.map File.path := by
        have := hkf.2
        simp only [decide_eq_true_eq] at this
        exact fun hm => this (mem_isFromIter.mpr hm)
      rcases pathMapOf_get_some hkprev with ⟨v, hv, hvm, hvp⟩
      refine Or.inr (Or.inr ⟨v, prev, rfl, ?_, hvm, hvp ▸ hkcurr⟩)
      rw [he, hv]
      rfl

/-! ## Lemmas about `State.update_on_change` -/

theorem is_file_iff (st : FileStat) : st.is_file = true ↔ st.is_dir = false := by
  unfold FileStat.is_file
  cases h : st.is_dir <;> simp

theorem update_on_change_fields (s : State) (f : File) :
    (s.update_on_change f).2.dirs = s.dirs ∧
      (s.update_on_change f).2.hashes = s.hashes ∧
      (s.update_on_change f).2.commands = s.commands := by
  by_cases hd : f.stat.is_dir = true
  · simp only [State.update_on_change, if_pos hd]
    exact ⟨trivial, trivial, trivial⟩
  · cases hg : imGet f.path s.store with
    | none =>
      simp only [State.update_on_change, if_neg hd, hg]
      exact ⟨trivial, trivial, trivial⟩
    | some prev =>
      by_cases hm : prev.stat.modified ≠ f.stat.modified
      · simp only [State.update_on_change, if_neg hd, hg, if_pos hm]
        exact ⟨trivial, trivial, trivial⟩
      · simp only [State.update_on_change, if_neg hd, hg, if_neg hm]
        exact ⟨trivial, trivial, trivial⟩

theorem update_on_change_noop (s : State) (f : File) (g : File)
    (hg : imGet f.path s.store = some g)
    (hmod : g.stat.modified = f.stat.modified) :
    s.update_on_change f = (false, s) := by
  by_cases hd : f.stat.is_dir = true
  · simp only [State.update_on_change, if_pos hd]
  · simp only [State.update_on_change, if_neg hd, hg,
      if_neg (fun h : ¬ g.stat.modified = f.stat.modified => h hmod)]

theorem update_on_change_store_get_ne (s : State) (f : File) (q : NullFsPath)
    (h : q ≠ f.path) :
    imGet q (s.update_on_change f).2.store = imGet q s.store := by
  by_cases hd : f.stat.is_dir = true
  · simp only [State.update_on_change, if_pos hd]
  · cases hg : imGet f.path s.store with
    | none =>
      simp only [State.update_on_change, if_neg hd, hg]
      exact imGet_imInsert_ne f s.store h
    | some prev =>
      by_cases hm : prev.stat.modified ≠ f.stat.modified
      · simp only [State.update_on_change, if_neg hd, hg, if_pos hm]
        exact imGet_imInsert_ne f s.store h
      · simp only [State.update_on_change, if_neg hd, hg, if_neg hm]

theorem update_on_change_store_get_self (s : State) (f : File)
    (hfile : f.stat.is_file = true) :
    ∃ g, imGet f.path (s.update_on_change f).2.store = some g ∧
      g.stat.modified = f.stat.modified := by
  have hd : ¬ f.stat.is_dir = true := by simp [(is_file_iff f.stat).mp hfile]
  cases hg : imGet f.path s.store with
  | none =>
    simp only [State.update_on_change, if_neg hd, hg]
    exact ⟨f, imGet_imInsert_self f.path f s.store, rfl⟩
  | some prev =>
    by_cases hm : prev.stat.modified ≠ f.stat.modified
    · simp only [State.update_on_change, if_neg hd, hg, if_pos hm]
      exact ⟨f, imGet_imInsert_self f.path f s.store, rfl⟩
    · simp only [State.update_on_change, if_neg hd, hg, if_neg hm]
      exact ⟨prev, rfl, by omega⟩

theorem update_on_change_nodup (s : State) (f : File)
    (h : (imKeys s.store).Nodup) :
    (imKeys (s.update_on_change f).2.store).Nodup := by
  by_cases hd : f.stat.is_dir = true
  · simp only [State.update_on_change, if_pos hd]
    exact h
  · cases hg : imGet f.path s.store with
    | none =>
      simp only [State.update_on_change, if_neg hd, hg]
      exact imInsert_nodup f.path f s.store h
    | some prev =>
      by_cases hm : prev.stat.modified ≠ f.stat.modified
      · simp only [State.update_on_change, if_neg hd, hg, if_pos hm]
        exact imInsert_nodup f.path f s.store h
      · simp only [State.update_on_change, if_neg hd, hg, if_neg hm]
        exact h

/-! ## Locality of the walk: only keys inside the subtree are touched -/

theorem ifInsert_store (σ : State) (b : Bool) (c : Command) :
    (if b then σ.insertCommand c else σ).store = σ.store := by
  cases b <;> rfl

theorem ifInsert_dirs (σ : State) (b : Bool) (c : Command) :
    (if b then σ.insertCommand c else σ).dirs = σ.dirs := by
  cases b <;> rfl

theorem captureEntries_get_ne (rec : FsTree → NullFsPath → State → State)
    (hrecS : ∀ c p σ q, ¬ PathLeads p q →
      imGet q (rec c p σ).store = imGet q σ.store)
    (hrecD : ∀ c p σ q, ¬ PathLeads p q →
      imGet q (rec c p σ).dirs = imGet q σ.dirs) :
    ∀ (pairs : List (File × FsTree)) (allNew : Bool) (σ : State) (q : NullFsPath),
      (∀ fc ∈ pairs, ¬ PathLeads fc.1.path q) →
      imGet q (captureEntries rec pairs allNew σ).store = imGet q σ.store ∧
        imGet q (captureEntries rec pairs allNew σ).dirs = imGet q σ.dirs := by
  intro pairs
  induction pairs with
  | nil => intro allNew σ q _; exact ⟨rfl, rfl⟩
  | cons fc rest ih =>
    intro allNew σ q hq
    obtain ⟨f, c⟩ := fc
    have hqf : ¬ PathLeads f.path q := hq (f, c) (List.mem_cons_self _ _)
    have hqfe : q ≠ f.path := fun e => hqf (e ▸ pathLeads_refl f.path)
    have hqr : ∀ fc2 ∈ rest, ¬ PathLeads fc2.1.path q :=
      fun fc2 h2 => hq fc2 (List.mem_cons_of_mem _ h2)
    by_cases hfile : f.stat.is_file = true
    · simp only [captureEntries]
      rw [if_pos hfile]
      refine ⟨(ih allNew _ q hqr).1.trans ?_, (ih allNew _ q hqr).2.trans ?_⟩
      · by_cases hch :
            ((if allNew then σ.insertCommand (Command.write f) else σ).update_on_change f).1 = true
        · rw [if_pos hch]
          show imGet q ((if allNew then σ.insertCommand (Command.write f)
            else σ).update_on_change f).2.store = imGet q σ.store
          rw [update_on_change_store_get_ne _ f q hqfe]
          rw [show ((if allNew then σ.insertCommand (Command.write f) else σ)).store = σ.store
            from ifInsert_store σ allNew _]
        · rw [if_neg hch]
          rw [update_on_change_store_get_ne _ f q hqfe]
          rw [show ((if allNew then σ.insertCommand (Command.write f) else σ)).store = σ.store
            from ifInsert_store σ allNew _]
      · by_cases hch :
            ((if allNew then σ.insertCommand (Command.write f) else σ).update_on_change f).1 = true
        · rw [if_pos hch]
          show imGet q ((if allNew then σ.insertCommand (Command.write f)
            else σ).update_on_change f).2.dirs = imGet q σ.dirs
          rw [(update_on_change_fields _ f).1]
          rw [show ((if allNew then σ.insertCommand (Command.write f) else σ)).dirs = σ.dirs
            from ifInsert_dirs σ allNew _]
        · rw [if_neg hch]
          rw [(update_on_change_fields _ f).1]
          rw [show ((if allNew then σ.insertCommand (Command.write f) else σ)).dirs = σ.dirs
            from ifInsert_dirs σ allNew _]
    · simp only [captureEntries]
      rw [if_neg hfile]
      refine ⟨(ih allNew _ q hqr).1.trans ?_, (ih allNew _ q hqr).2.trans ?_⟩
      · rw [hrecS c f.path _ q hqf]
        rw [show ((if allNew then σ.insertCommand (Command.write f) else σ)).store = σ.store
          from ifInsert_store σ allNew _]
      · rw [hrecD c f.path _ q hqf]
        rw [show ((if allNew then σ.insertCommand (Command.write f) else σ)).dirs = σ.dirs
          from ifInsert_dirs σ allNew _]

theorem capturePath_loc :
    ∀ (fuel : Nat) (t : FsTree) (path : NullFsPath) (σ : State) (q : NullFsPath),
      ¬ PathLeads path q →
      imGet q (capturePath fuel t path σ).store = imGet q σ.store ∧
        imGet q (capturePath fuel t path σ).dirs = imGet q σ.dirs := by
  intro fuel
  induction fuel with
  | zero => intro t path σ q _; exact ⟨rfl, rfl⟩
  | succ m ih =>
    intro t path σ q hq
    by_cases hdir : t.stat.is_dir = false
    · simp only [capturePath]
      rw [if_pos hdir]
      exact ⟨rfl, rfl⟩
    · simp only [capturePath]
      rw [if_neg hdir]
      have hqpairs : ∀ fc ∈ currPairs path t, ¬ PathLeads fc.1.path q := by
        intro fc hfc
        rcases currPairs_child hfc with ⟨n, hn⟩
        rw [hn]
        exact not_pathLeads_of_child hq
      have hqpath : q ≠ path := fun e => hq (e ▸ pathLeads_refl path)
      have hce := captureEntries_get_ne (capturePath m)
        (fun c p σ2 q2 h2 => (ih c p σ2 q2 h2).1)
        (fun c p σ2 q2 h2 => (ih c p σ2 q2 h2).2)
        (currPairs path t)
        (σ.diffPrev path ((currPairs path t).map Prod.fst)).1
        { (σ.diffPrev path ((currPairs path t).map Prod.fst)).2 with
          dirs := imInsert path ((currPairs path t).map Prod.fst)
            (σ.diffPrev path ((currPairs path t).map Prod.fst)).2.dirs }
        q hqpairs
      refine ⟨hce.1.trans ?_, hce.2.trans ?_⟩
      · show imGet q (σ.diffPrev path ((currPairs path t).map Prod.fst)).2.store = imGet q σ.store
        rw [(diffPrev_fields σ path _).1]
      · show imGet q (imInsert path ((currPairs path t).map Prod.fst)
          (σ.diffPrev path ((currPairs path t).map Prod.fst)).2.dirs) = imGet q σ.dirs
        rw [imGet_imInsert_ne _ _ hqpath, (diffPrev_fields σ path _).2.1]

/-! ## Preservation of the key invariants and command monotonicity -/

theorem captureEntries_nodup (rec : FsTree → NullFsPath → State → State)
    (hrec : ∀ c p σ, (imKeys σ.store).Nodup → (imKeys σ.dirs).Nodup →
      (imKeys (rec c p σ).store).Nodup ∧ (imKeys (rec c p σ).dirs).Nodup) :
    ∀ (pairs : List (File × FsTree)) (allNew : Bool) (σ : State),
      (imKeys σ.store).Nodup → (imKeys σ.dirs).Nodup →
      (imKeys (captureEntries rec pairs allNew σ).store).Nodup ∧
        (imKeys (captureEntries rec pairs allNew σ).dirs).Nodup := by
  intro pairs
  induction pairs with
  | nil => intro allNew σ h1 h2; exact ⟨h1, h2⟩
  | cons fc rest ih =>
    intro allNew σ h1 h2
    obtain ⟨f, c⟩ := fc
    have h1b : (imKeys (if allNew then σ.insertCommand (Command.write f) else σ).store).Nodup := by
      rw [ifInsert_store]
      exact h1
    have h2b : (imKeys (if allNew then σ.insertCommand (Command.write f) else σ).dirs).Nodup := by
      rw [ifInsert_dirs]
      exact h2
    by_cases hfile : f.stat.is_file = true
    · simp only [captureEntries]
      rw [if_pos hfile]
      by_cases hch :
          ((if allNew then σ.insertCommand (Command.write f) else σ).update_on_change f).1 = true
      · rw [if_pos hch]
        refine ih allNew _ ?_ ?_
        · show (imKeys ((if allNew then σ.insertCommand (Command.write f)
            else σ).update_on_change f).2.store).Nodup
          exact update_on_change_nodup _ f h1b
        · show (imKeys ((if allNew then σ.insertCommand (Command.write f)
            else σ).update_on_change f).2.dirs).Nodup
          rw [(update_on_change_fields _ f).1]
          exact h2b
      · rw [if_neg hch]
        refine ih allNew _ (update_on_change_nodup _ f h1b) ?_
        rw [(update_on_change_fields _ f).1]
        exact h2b
    · simp only [captureEntries]
      rw [if_neg hfile]
      have hr := hrec c f.path _ h1b h2b
      exact ih allNew _ hr.1 hr.2

theorem capturePath_nodup :
    ∀ (fuel : Nat) (t : FsTree) (path : NullFsPath) (σ : State),
      (imKeys σ.store).Nodup → (imKeys σ.dirs).Nodup →
      (imKeys (capturePath fuel t path σ).store).Nodup ∧
        (imKeys (capturePath fuel t path σ).dirs).Nodup := by
  intro fuel
  induction fuel with
  | zero => intro t path σ h1 h2; exact ⟨h1, h2⟩
  | succ m ih =>
    intro t path σ h1 h2
    by_cases hdir : t.stat.is_dir = false
    · simp only [capturePath]
      rw [if_pos hdir]
      exact ⟨h1, h2⟩
    · simp only [capturePath]
      rw [if_neg hdir]
      refine captureEntries_nodup (capturePath m) (fun c p σ2 ha hb => ih c p σ2 ha hb)
        (currPairs path t) _ _ ?_ ?_
      · show (imKeys (σ.diffPrev path ((currPairs path t).map Prod.fst)).2.store).Nodup
        rw [(diffPrev_fields σ path _).1]
        exact h1
      · show (imKeys (imInsert path ((currPairs path t).map Prod.fst)
          (σ.diffPrev path ((currPairs path t).map Prod.fst)).2.dirs)).Nodup
        refine imInsert_nodup path _ _ ?_
        rw [(diffPrev_fields σ path _).2.1]
        exact h2

theorem diffPrev_commands_mono (s : State) (path : NullFsPath) (curr : List File) :
    ∀ c ∈ s.commands, c ∈ (s.diffPrev path curr).2.commands := by
  unfold State.diffPrev
  cases hget : imGet path s.dirs with
  | none => intro c hc; exact hc
  | some prev =>
    intro c hc
    exact foldl_insertCommand_mono _ _ _ c (foldl_insertCommand_mono _ _ _ c hc)

theorem captureEntries_commands_mono (rec : FsTree → NullFsPath → State → State)
    (hrec : ∀ c p σ cc, cc ∈ σ.commands → cc ∈ (rec c p σ).commands) :
    ∀ (pairs : List (File × FsTree)) (allNew : Bool) (σ : State) (cc : Command),
      cc ∈ σ.commands → cc ∈ (captureEntries rec pairs allNew σ).commands := by
  intro pairs
  induction pairs with
  | nil => intro allNew σ cc h; exact h
  | cons fc rest ih =>
    intro allNew σ cc h
    obtain ⟨f, c⟩ := fc
    have h1 : cc ∈ (if allNew then σ.insertCommand (Command.write f) else σ).commands := by
      cases allNew
      · exact h
      · exact mem_isInsert.mpr (Or.inl h)
    by_cases hfile : f.stat.is_file = true
    · simp only [captureEntries]
      rw [if_pos hfile]
      by_cases hch :
          ((if allNew then σ.insertCommand (Command.write f) else σ).update_on_change f).1 = true
      · rw [if_pos hch]
        refine ih allNew _ cc ?_
        refine mem_isInsert.mpr (Or.inl ?_)
        rw [(update_on_change_fields _ f).2.2]
        exact h1
      · rw [if_neg hch]
        refine ih allNew _ cc ?_
        rw [(update_on_change_fields _ f).2.2]
        exact h1
    · simp only [captureEntries]
      rw [if_neg hfile]
      exact ih allNew _ cc (hrec c f.path _ cc h1)

theorem capturePath_commands_mono :
    ∀ (fuel : Nat) (t : FsTree) (path : NullFsPath) (σ : State) (cc : Command),
      cc ∈ σ.commands → cc ∈ (capturePath fuel t path σ).commands := by
  intro fuel
  induction fuel with
  | zero => intro t path σ cc h; exact h
  | succ m ih =>
    intro t path σ cc h
    by_cases hdir : t.stat.is_dir = false
    · simp only [capturePath]
      rw [if_pos hdir]
      exact h
    · simp only [capturePath]
      rw [if_neg hdir]
      refine captureEntries_commands_mono (capturePath m)
        (fun c p σ2 cc2 h2 => ih c p σ2 cc2 h2) (currPairs path t) _ _ cc ?_
      show cc ∈ (σ.diffPrev path ((currPairs path t).map Prod.fst)).2.commands
      exact diffPrev_commands_mono σ path _ cc h

/-! ## The spine: every path the walk inspects lies inside the subtree -/

theorem visitedDirsEntries_spine (rec : FsTree → NullFsPath → List NullFsPath)
    (hrec : ∀ c p q, q ∈ rec c p → PathLeads p q) :
    ∀ (pairs : List (File × FsTree)) (path : NullFsPath),
      (∀ fc ∈ pairs, PathLeads path fc.1.path) →
      ∀ q ∈ visitedDirsEntries rec pairs, PathLeads path q := by
  intro pairs
  induction pairs with
  | nil => intro path _ q hq; simp [visitedDirsEntries] at hq
  | cons fc rest ih =>
    intro path hmem q hq
    obtain ⟨f, c⟩ := fc
    simp only [visitedDirsEntries, List.mem_append] at hq
    rcases hq with hq | hq
    · by_cases hfile : f.stat.is_file = true
      · rw [if_pos hfile] at hq
        simp at hq
      · rw [if_neg hfile] at hq
        exact pathLeads_trans (hmem (f, c) (List.mem_cons_self _ _)) (hrec c f.path q hq)
    · exact ih path (fun e he => hmem e (List.mem_cons_of_mem _ he)) q hq

theorem visitedDirs_spine :
    ∀ (fuel : Nat) (t : FsTree) (path : NullFsPath) (q : NullFsPath),
      q ∈ visitedDirs fuel t path → PathLeads path q := by
  intro fuel
  induction fuel with
  | zero => intro t path q hq; simp [visitedDirs] at hq
  | succ m ih =>
    intro t path q hq
    by_cases hdir : t.stat.is_dir = false
    · simp only [visitedDirs] at hq
      rw [if_pos hdir] at hq
      simp at hq
    · simp only [visitedDirs] at hq
      rw [if_neg hdir] at hq
      rcases List.mem_cons.mp hq with hq | hq
      · subst hq; exact pathLeads_refl q
      · refine visitedDirsEntries_spine (visitedDirs m)
          (fun c p q2 h2 => ih c p q2 h2) (currPairs path t) path ?_ q hq
        intro fc hfc
        rcases currPairs_child hfc with ⟨n, hn⟩
        rw [hn]
        exact pathLeads_child path n

theorem visitedFilesEntries_spine (rec : FsTree → NullFsPath → List NullFsPath)
    (hrec : ∀ c p q, q ∈ rec c p → ∃ w n, q = w ++ [n] ∧ PathLeads p w) :
    ∀ (pairs : List (File × FsTree)) (path : NullFsPath),
      (∀ fc ∈ pairs, ∃ n, fc.1.path = path ++ [n]) →
      ∀ q ∈ visitedFilesEntries rec pairs,
        ∃ w n, q = w ++ [n] ∧ PathLeads path w := by
  intro pairs
  induction pairs with
  | nil => intro path _ q hq; simp [visitedFilesEntries] at hq
  | cons fc rest ih =>
    intro path hmem q hq
    obtain ⟨f, c⟩ := fc
    simp only [visitedFilesEntries, List.mem_append] at hq
    rcases hq with hq | hq
    · rcases hmem (f, c) (List.mem_cons_self _ _) with ⟨n, hn⟩
      by_cases hfile : f.stat.is_file = true
      · rw [if_pos hfile] at hq
        simp at hq
        subst hq
        exact ⟨path, n, hn, pathLeads_refl path⟩
      · rw [if_neg hfile] at hq
        rcases hrec c f.path q hq with ⟨w, n2, hw, hlead⟩
        refine ⟨w, n2, hw, ?_⟩
        refine pathLeads_trans ?_ hlead
        rw [hn]
        exact pathLeads_child path n
    · exact ih path (fun e he => hmem e (List.mem_cons_of_mem _ he)) q hq

theorem visitedFiles_spine :
    ∀ (fuel : Nat) (t : FsTree) (path : NullFsPath) (q : NullFsPath),
      q ∈ visitedFiles fuel t path → ∃ w n, q = w ++ [n] ∧ PathLeads path w := by
  intro fuel
  induction fuel with
  | zero => intro t path q hq; simp [visitedFiles] at hq
  | succ m ih =>
    intro t path q hq
    by_cases hdir : t.stat.is_dir = false
    · simp only [visitedFiles] at hq
      rw [if_pos hdir] at hq
      simp at hq
    · simp only [visitedFiles] at hq
      rw [if_neg hdir] at hq
      refine visitedFilesEntries_spine (visitedFiles m)
        (fun c p q2 h2 => ih c p q2 h2) (currPairs path t) path ?_ q hq
      intro fc hfc
      exact currPairs_child hfc

/-! ## Stability of `Synced` under changes outside the visited paths -/

theorem EntriesSynced_stable (sync : FsTree → NullFsPath → State → Prop)
    (vd vf : FsTree → NullFsPath → List NullFsPath) (σ σ2 : State)
    (hrec : ∀ c p, (∀ q ∈ vd c p, imGet q σ2.dirs = imGet q σ.dirs) →
        (∀ q ∈ vf c p, imGet q σ2.store = imGet q σ.store) →
        sync c p σ → sync c p σ2) :
    ∀ (pairs : List (File × FsTree)),
      (∀ q ∈ visitedDirsEntries vd pairs, imGet q σ2.dirs = imGet q σ.dirs) →
      (∀ q ∈ visitedFilesEntries vf pairs, imGet q σ2.store = imGet q σ.store) →
      EntriesSynced sync pairs σ → EntriesSynced sync pairs σ2 := by
  intro pairs
  induction pairs with
  | nil => intro _ _ h; exact h
  | cons fc rest ih =>
    intro hD hF hES
    obtain ⟨f, c⟩ := fc
    obtain ⟨hhead, htail⟩ := hES
    refine ⟨?_, ?_⟩
    · by_cases hfile : f.stat.is_file = true
      · rw [if_pos hfile] at hhead ⊢
        obtain ⟨g, hg, hmod⟩ := hhead
        refine ⟨g, ?_, hmod⟩
        rw [hF f.path ?_]
        · exact hg
        · simp only [visitedFilesEntries, List.mem_append]
          rw [if_pos hfile]
          exact Or.inl (List.mem_singleton.mpr rfl)
      · rw [if_neg hfile] at hhead ⊢
        refine hrec c f.path ?_ ?_ hhead
        · intro q hq
          refine hD q ?_
          simp only [visitedDirsEntries, List.mem_append]
          rw [if_neg hfile]
          exact Or.inl hq
        · intro q hq
          refine hF q ?_
          simp only [visitedFilesEntries, List.mem_append]
          rw [if_neg hfile]
          exact Or.inl hq
    · refine ih ?_ ?_ htail
      · intro q hq
        refine hD q ?_
        simp only [visitedDirsEntries, List.mem_append]
        exact Or.inr hq
      · intro q hq
        refine hF q ?_
        simp only [visitedFilesEntries, List.mem_append]
        exact Or.inr hq

theorem Synced_stable :
    ∀ (fuel : Nat) (t : FsTree) (path : NullFsPath) (σ σ2 : State),
      (∀ q ∈ visitedDirs fuel t path, imGet q σ2.dirs = imGet q σ.dirs) →
      (∀ q ∈ visitedFiles fuel t path, imGet q σ2.store = imGet q σ.store) →
      Synced fuel t path σ → Synced fuel t path σ2 := by
  intro fuel
  induction fuel with
  | zero => intro t path σ σ2 _ _ _; trivial
  | succ m ih =>
    intro t path σ σ2 hD hF hS hdir
    obtain ⟨hget, hES⟩ := hS hdir
    have hdirF : ¬ t.stat.is_dir = false := by simp [hdir]
    refine ⟨?_, ?_⟩
    · rw [hD path ?_]
      · exact hget
      · simp only [visitedDirs]
        rw [if_neg hdirF]
        exact List.mem_cons_self _ _
    · refine EntriesSynced_stable (Synced m) (visitedDirs m) (visitedFiles m) σ σ2
        (fun c p hd hf hs => ih c p σ σ2 hd hf hs) (currPairs path t) ?_ ?_ hES
      · intro q hq
        refine hD q ?_
        simp only [visitedDirs]
        rw [if_neg hdirF]
        exact List.mem_cons_of_mem _ hq
      · intro q hq
        refine hF q ?_
        simp only [visitedFiles]
        rw [if_neg hdirF]
        exact hq

/-! ## Synced states are fixpoints of the walk -/

theorem captureEntries_fix (rec : FsTree → NullFsPath → State → State)
    (sync : FsTree → NullFsPath → State → Prop)
    (hrec : ∀ c p σ, sync c p σ → rec c p σ = σ) :
    ∀ (pairs : List (File × FsTree)) (σ : State),
      EntriesSynced sync pairs σ → captureEntries rec pairs false σ = σ := by
  intro pairs
  induction pairs with
  | nil => intro σ _; rfl
  | cons fc rest ih =>
    intro σ hES
    obtain ⟨f, c⟩ := fc
    obtain ⟨hhead, htail⟩ := hES
    by_cases hfile : f.stat.is_file = true
    · rw [if_pos hfile] at hhead
      obtain ⟨g, hg, hmod⟩ := hhead
      simp only [captureEntries, if_neg (Bool.false_ne_true), if_pos hfile]
      rw [update_on_change_noop σ f g hg hmod]
      exact ih σ htail
    · rw [if_neg hfile] at hhead
      simp only [captureEntries, if_neg (Bool.false_ne_true), if_neg hfile]
      rw [hrec c f.path σ hhead]
      exact ih σ htail

theorem capturePath_fix :
    ∀ (fuel : Nat) (t : FsTree) (path : NullFsPath) (σ : State),
      Synced fuel t path σ → capturePath fuel t path σ = σ := by
  intro fuel
  induction fuel with
  | zero => intro t path σ _; rfl
  | succ m ih =>
    intro t path σ hS
    by_cases hdir : t.stat.is_dir = false
    · simp only [capturePath]
      rw [if_pos hdir]
    · have hdirT : t.stat.is_dir = true := by
        cases h : t.stat.is_dir
        · exact absurd h hdir
        · rfl
      obtain ⟨hget, hES⟩ := hS hdirT
      simp only [capturePath]
      rw [if_neg hdir]
      rw [diffPrev_self σ path _ hget]
      rw [imInsert_get_self hget]
      exact captureEntries_fix (capturePath m) (Synced m)
        (fun c p σ2 h2 => ih c p σ2 h2) (currPairs path t) σ hES

/-! ## The walk establishes `Synced` (under unique entry names per level) -/

theorem capturePath_loc_store (m : Nat) :
    ∀ (c : FsTree) (p : NullFsPath) (σ : State) (q : NullFsPath),
      ¬ PathLeads p q → imGet q (capturePath m c p σ).store = imGet q σ.store :=
  fun c p σ q h => (capturePath_loc m c p σ q h).1

theorem capturePath_loc_dirs (m : Nat) :
    ∀ (c : FsTree) (p : NullFsPath) (σ : State) (q : NullFsPath),
      ¬ PathLeads p q → imGet q (capturePath m c p σ).dirs = imGet q σ.dirs :=
  fun c p σ q h => (capturePath_loc m c p σ q h).2

theorem child_not_leads_parent (path : NullFsPath) (n : String) :
    ¬ PathLeads (path ++ [n]) path := by
  intro h
  have h2 := pathLeads_length h
  rw [List.length_append] at h2
  simp at h2

theorem entriesHeadFileStable (m : Nat) (rest : List (File × FsTree)) (allNew : Bool)
    (s2 : State) (f : File)
    (hnl : ∀ fc2 ∈ rest, ¬ PathLeads fc2.1.path f.path)
    (hex : ∃ g, imGet f.path s2.store = some g ∧
      g.stat.modified = f.stat.modified) :
    ∃ g, imGet f.path (captureEntries (capturePath m) rest allNew s2).store = some g ∧
      g.stat.modified = f.stat.modified := by
  rw [(captureEntries_get_ne (capturePath m) (capturePath_loc_store m)
    (capturePath_loc_dirs m) rest allNew s2 f.path hnl).1]
  exact hex

theorem entriesHeadDirStable (m : Nat) (rest : List (File × FsTree)) (allNew : Bool)
    (s2 : State) (c : FsTree) (p : NullFsPath)
    (hnl : ∀ q, PathLeads p q → ∀ fc2 ∈ rest, ¬ PathLeads fc2.1.path q)
    (hS : Synced m c p s2) :
    Synced m c p (captureEntries (capturePath m) rest allNew s2) := by
  refine Synced_stable m c p s2 _ ?_ ?_ hS
  · intro q hq
    exact (captureEntries_get_ne (capturePath m) (capturePath_loc_store m)
      (capturePath_loc_dirs m) rest allNew s2 q
      (hnl q (visitedDirs_spine m c p q hq))).2
  · intro q hq
    rcases visitedFiles_spine m c p q hq with ⟨w, s, hw, hlead⟩
    have hq2 : PathLeads p q := by
      rw [hw]
      exact pathLeads_trans hlead (pathLeads_child w s)
    exact (captureEntries_get_ne (capturePath m) (capturePath_loc_store m)
      (capturePath_loc_dirs m) rest allNew s2 q (hnl q hq2)).1

theorem captureEntries_establish (m : Nat)
    (hrecE : ∀ c p σ, treeOK m c = true → Synced m c p (capturePath m c p σ)) :
    ∀ (pairs : List (File × FsTree)) (allNew : Bool) (σ : State)
      (path : NullFsPath),
      (∀ fc ∈ pairs, ∃ n, fc.1.path = path ++ [n]) →
      pairs.Pairwise (fun a b => a.1.path ≠ b.1.path) →
      (∀ fc ∈ pairs, treeOK m fc.2 = true) →
      EntriesSynced (Synced m) pairs
        (captureEntries (capturePath m) pairs allNew σ) := by
  intro pairs
  induction pairs with
  | nil => intro allNew σ path _ _ _; trivial
  | cons fc rest ih =>
    intro allNew σ path hch hpw htr
    obtain ⟨f, c⟩ := fc
    obtain ⟨n, hn⟩ := hch (f, c) (List.mem_cons_self _ _)
    have hpwc := List.pairwise_cons.mp hpw
    have hchR : ∀ fc2 ∈ rest, ∃ n2, fc2.1.path = path ++ [n2] :=
      fun e he => hch e (List.mem_cons_of_mem _ he)
    have htrR : ∀ fc2 ∈ rest, treeOK m fc2.2 = true :=
      fun e he => htr e (List.mem_cons_of_mem _ he)
    have hrestNL : ∀ q, PathLeads f.path q →
        ∀ fc2 ∈ rest, ¬ PathLeads fc2.1.path q := by
      intro q hq fc2 hfc2 hq2
      rcases hchR fc2 hfc2 with ⟨n2, hn2⟩
      rw [hn2] at hq2
      rw [hn] at hq
      have heqn := pathLeads_sibling hq hq2
      refine hpwc.1 fc2 hfc2 ?_
      rw [hn, hn2, heqn]
    by_cases hfile : f.stat.is_file = true
    · simp only [captureEntries]
      rw [if_pos hfile]
      refine ⟨?_, ?_⟩
      · rw [if_pos hfile]
        refine entriesHeadFileStable m rest allNew _ f
          (hrestNL f.path (pathLeads_refl f.path)) ?_
        rw [ifInsert_store]
        exact update_on_change_store_get_self _ f hfile
      · exact ih allNew _ path hchR hpwc.2 htrR
    · simp only [captureEntries]
      rw [if_neg hfile]
      refine ⟨?_, ?_⟩
      · rw [if_neg hfile]
        exact entriesHeadDirStable m rest allNew _ c f.path hrestNL
          (hrecE c f.path _ (htr (f, c) (List.mem_cons_self _ _)))
      · exact ih allNew _ path hchR hpwc.2 htrR

theorem capturePath_establish :
    ∀ (fuel : Nat) (t : FsTree) (path : NullFsPath) (σ : State),
      treeOK fuel t = true → Synced fuel t path (capturePath fuel t path σ) := by
  intro fuel
  induction fuel with
  | zero => intro t path σ _; trivial
  | succ m ih =>
    intro t path σ htOK
    by_cases hdir : t.stat.is_dir = false
    · intro hdirT
      simp [hdir] at hdirT
    · intro _hdirT
      simp only [capturePath]
      rw [if_neg hdir]
      constructor
      · have hpairs : ∀ fc ∈ currPairs path t, ¬ PathLeads fc.1.path path := by
          intro fc hfc hlead
          rcases currPairs_child hfc with ⟨n2, hn2⟩
          rw [hn2] at hlead
          exact child_not_leads_parent path n2 hlead
        rw [(captureEntries_get_ne (capturePath m) (capturePath_loc_store m)
          (capturePath_loc_dirs m) (currPairs path t) _ _ path hpairs).2]
        exact imGet_imInsert_self path _ _
      · refine captureEntries_establish m (fun c p σ2 h2 => ih c p σ2 h2)
          (currPairs path t) _ _ path ?_ ?_ ?_
        · intro fc hfc; exact currPairs_child hfc
        · exact currPairs_pairwise_paths (treeOK_succ htOK).1
        · intro fc hfc
          rcases currPairs_mem hfc with ⟨n2, hmem, _⟩
          exact (treeOK_succ htOK).2 (n2, fc.2) hmem

/-! ## Small helpers for the delete and all-new analyses -/

theorem isChildSeg_iff (q p : NullFsPath) :
    isChildSeg q p = true ↔ ∃ n, q = p ++ [n] := by
  unfold isChildSeg
  rw [decide_eq_true_eq]
  constructor
  · rintro ⟨hne, hdrop⟩
    refine ⟨q.getLast hne, ?_⟩
    rw [← hdrop]
    exact (List.dropLast_append_getLast hne).symm
  · rintro ⟨n, rfl⟩
    exact ⟨by simp, by simp⟩

theorem dirsChildOK_spec {dirs : List (NullFsPath × List File)}
    (h : dirsChildOK dirs = true) :
    ∀ q l, imGet q dirs = some l → ∀ g ∈ l, isChildSeg g.path q = true := by
  intro q l hget g hg
  have hmem := imGet_mem hget
  have h2 := List.all_eq_true.mp h (q, l) hmem
  exact List.all_eq_true.mp h2 g hg

theorem mem_deletedPaths_iff {cmds : List Command} {q : NullFsPath} :
    q ∈ deletedPaths cmds ↔ ∃ f, Command.delete f ∈ cmds ∧ f.path = q := by
  unfold deletedPaths
  rw [List.mem_filterMap]
  constructor
  · rintro ⟨c, hc, he⟩
    cases c with
    | delete f =>
      simp only [Option.some.injEq] at he
      exact ⟨f, hc, he⟩
    | write f => simp at he
    | touch f => simp at he
  · rintro ⟨f, hf, he⟩
    exact ⟨Command.delete f, hf, by simp [he]⟩

theorem mem_createdPaths_of_write {cmds : List Command} {f : File}
    (h : Command.write f ∈ cmds) : f.path ∈ createdPaths cmds := by
  unfold createdPaths
  rw [List.mem_filterMap]
  exact ⟨Command.write f, h, rfl⟩

theorem diffPrev_none (s : State) (path : NullFsPath) (curr : List File)
    (h : imGet path s.dirs = none) : s.diffPrev path curr = (true, s) := by
  simp only [State.diffPrev, h]

theorem capturePath_dirs_self (m : Nat) (t : FsTree) (path : NullFsPath)
    (σ : State) (hdir : ¬ t.stat.is_dir = false) :
    imGet path (capturePath (m + 1) t path σ).dirs =
      some ((currPairs path t).map Prod.fst) := by
  simp only [capturePath]
  rw [if_neg hdir]
  have hpairs : ∀ fc ∈ currPairs path t, ¬ PathLeads fc.1.path path := by
    intro fc hfc hlead
    rcases currPairs_child hfc with ⟨n2, hn2⟩
    rw [hn2] at hlead
    exact child_not_leads_parent path n2 hlead
  rw [(captureEntries_get_ne (capturePath m) (capturePath_loc_store m)
    (capturePath_loc_dirs m) (currPairs path t) _ _ path hpairs).2]
  exact imGet_imInsert_self path _ _

theorem ifWrite_commands (σ : State) (allNew : Bool) (f : File) (cc : Command)
    (h : cc ∈ (if allNew then σ.insertCommand (Command.write f) else σ).commands) :
    cc ∈ σ.commands ∨ cc = Command.write f := by
  cases allNew
  · exact Or.inl h
  · exact mem_isInsert.mp h

theorem touchStep_commands (s : State) (f : File) (cc : Command)
    (h : cc ∈ (if (s.update_on_change f).1 = true
        then (s.update_on_change f).2.insertCommand (Command.touch f)
        else (s.update_on_change f).2).commands) :
    cc ∈ s.commands ∨ cc = Command.touch f := by
  by_cases hr : (s.update_on_change f).1 = true
  · rw [if_pos hr] at h
    rcases mem_isInsert.mp h with h2 | h2
    · left
      rw [← (update_on_change_fields s f).2.2]
      exact h2
    · right
      exact h2
  · rw [if_neg hr] at h
    left
    rw [← (update_on_change_fields s f).2.2]
    exact h

theorem touchStep_dirs (s : State) (f : File) :
    (if (s.update_on_change f).1 = true
        then (s.update_on_change f).2.insertCommand (Command.touch f)
        else (s.update_on_change f).2).dirs = s.dirs := by
  rw [ifInsert_dirs]
  exact (update_on_change_fields s f).1

/-! ## Characterisation of the `Delete` commands a walk emits -/

theorem captureEntries_deletes (m : Nat)
    (hrec : ∀ c p σ, treeOK m c = true →
      (∀ q l, PathLeads p q → imGet q σ.dirs = some l →
        ∀ g ∈ l, isChildSeg g.path q = true) →
      ∀ cc ∈ (capturePath m c p σ).commands,
        cc ∈ σ.commands ∨ (∃ f, cc = Command.write f) ∨
        (∃ f, cc = Command.touch f) ∨
        (∃ f q n, cc = Command.delete f ∧ f.path = q ++ [n] ∧ PathLeads p q ∧
          ∃ l, imGet q (capturePath m c p σ).dirs = some l ∧
            f.path ∉ l.map File.path)) :
    ∀ (pairs : List (File × FsTree)) (allNew : Bool) (σ : State)
      (path : NullFsPath),
      (∀ fc ∈ pairs, ∃ n, fc.1.path = path ++ [n]) →
      pairs.Pairwise (fun a b => a.1.path ≠ b.1.path) →
      (∀ fc ∈ pairs, treeOK m fc.2 = true) →
      (∀ q l, (∃ fc, fc ∈ pairs ∧ PathLeads fc.1.path q) →
        imGet q σ.dirs = some l → ∀ g ∈ l, isChildSeg g.path q = true) →
      ∀ cc ∈ (captureEntries (capturePath m) pairs allNew σ).commands,
        cc ∈ σ.commands ∨ (∃ f, cc = Command.write f) ∨
        (∃ f, cc = Command.touch f) ∨
        (∃ f q n, cc = Command.delete f ∧ f.path = q ++ [n] ∧
          (∃ fc, fc ∈ pairs ∧ PathLeads fc.1.path q) ∧
          ∃ l, imGet q (captureEntries (capturePath m) pairs allNew σ).dirs = some l ∧
            f.path ∉ l.map File.path) := by
  intro pairs
  induction pairs with
  | nil => intro allNew σ path _ _ _ _ cc hcc; exact Or.inl hcc
  | cons fc rest ih =>
    intro allNew σ path hch hpw htr hinv cc hcc
    obtain ⟨f, c⟩ := fc
    obtain ⟨n, hn⟩ := hch (f, c) (List.mem_cons_self _ _)
    have hpwc := List.pairwise_cons.mp hpw
    have hchR : ∀ fc2 ∈ rest, ∃ n2, fc2.1.path = path ++ [n2] :=
      fun e he => hch e (List.mem_cons_of_mem _ he)
    have htrR : ∀ fc2 ∈ rest, treeOK m fc2.2 = true :=
      fun e he => htr e (List.mem_cons_of_mem _ he)
    have hrestNL : ∀ q, PathLeads f.path q →
        ∀ fc2 ∈ rest, ¬ PathLeads fc2.1.path q := by
      intro q hq fc2 hfc2 hq2
      rcases hchR fc2 hfc2 with ⟨n2, hn2⟩
      rw [hn2] at hq2
      rw [hn] at hq
      have heqn := pathLeads_sibling hq hq2
      refine hpwc.1 fc2 hfc2 ?_
      rw [hn, hn2, heqn]
    by_cases hfile : f.stat.is_file = true
    · simp only [captureEntries] at hcc ⊢
      rw [if_pos hfile] at hcc ⊢
      have hinv2 : ∀ q l, (∃ fc2, fc2 ∈ rest ∧ PathLeads fc2.1.path q) →
          imGet q (if ((if allNew then σ.insertCommand (Command.write f)
              else σ).update_on_change f).1 = true
            then ((if allNew then σ.insertCommand (Command.write f)
              else σ).update_on_change f).2.insertCommand (Command.touch f)
            else ((if allNew then σ.insertCommand (Command.write f)
              else σ).update_on_change f).2).dirs = some l →
          ∀ g ∈ l, isChildSeg g.path q = true := by
        intro q l hex hget
        rw [touchStep_dirs, ifInsert_dirs] at hget
        obtain ⟨fc2, hfc2, hlead⟩ := hex
        exact hinv q l ⟨fc2, List.mem_cons_of_mem _ hfc2, hlead⟩ hget
      rcases ih allNew _ path hchR hpwc.2 htrR hinv2 cc hcc with h1 | h2 | h3 | h4
      · rcases touchStep_commands _ f cc h1 with h5 | h5
        · rcases ifWrite_commands σ allNew f cc h5 with h6 | h6
          · exact Or.inl h6
          · exact Or.inr (Or.inl ⟨f, h6⟩)
        · exact Or.inr (Or.inr (Or.inl ⟨f, h5⟩))
      · exact Or.inr (Or.inl h2)
      · exact Or.inr (Or.inr (Or.inl h3))
      · obtain ⟨f', q, n2, he, hfq, ⟨fc2, hfc2, hlead⟩, l, hget, hnot⟩ := h4
        exact Or.inr (Or.inr (Or.inr ⟨f', q, n2, he, hfq,
          ⟨fc2, List.mem_cons_of_mem _ hfc2, hlead⟩, l, hget, hnot⟩))
    · simp only [captureEntries] at hcc ⊢
      rw [if_neg hfile] at hcc ⊢
      have hinv2 : ∀ q l, (∃ fc2, fc2 ∈ rest ∧ PathLeads fc2.1.path q) →
          imGet q (capturePath m c f.path
            (if allNew then σ.insertCommand (Command.write f) else σ)).dirs =
            some l →
          ∀ g ∈ l, isChildSeg g.path q = true := by
        intro q l hex hget
        obtain ⟨fc2, hfc2, hlead⟩ := hex
        have hnotf : ¬ PathLeads f.path q :=
          fun hcon => hrestNL q hcon fc2 hfc2 hlead
        rw [capturePath_loc_dirs m c f.path _ q hnotf, ifInsert_dirs] at hget
        exact hinv q l ⟨fc2, List.mem_cons_of_mem _ hfc2, hlead⟩ hget
      rcases ih allNew _ path hchR hpwc.2 htrR hinv2 cc hcc with h1 | h2 | h3 | h4
      · have hinvc : ∀ q l, PathLeads f.path q →
            imGet q (if allNew then σ.insertCommand (Command.write f)
              else σ).dirs = some l →
            ∀ g ∈ l, isChildSeg g.path q = true := by
          intro q l hlead hget
          rw [ifInsert_dirs] at hget
          exact hinv q l ⟨(f, c), List.mem_cons_self _ _, hlead⟩ hget
        rcases hrec c f.path _ (htr (f, c) (List.mem_cons_self _ _)) hinvc cc h1
          with g1 | g2 | g3 | g4
        · rcases ifWrite_commands σ allNew f cc g1 with h6 | h6
          · exact Or.inl h6
          · exact Or.inr (Or.inl ⟨f, h6⟩)
        · exact Or.inr (Or.inl g2)
        · exact Or.inr (Or.inr (Or.inl g3))
        · obtain ⟨f', q, n2, he, hfq, hlead, l, hget, hnot⟩ := g4
          refine Or.inr (Or.inr (Or.inr ⟨f', q, n2, he, hfq,
            ⟨(f, c), List.mem_cons_self _ _, hlead⟩, l, ?_, hnot⟩))
          rw [(captureEntries_get_ne (capturePath m) (capturePath_loc_store m)
            (capturePath_loc_dirs m) rest allNew _ q (hrestNL q hlead)).2]
          exact hget
      · exact Or.inr (Or.inl h2)
      · exact Or.inr (Or.inr (Or.inl h3))
      · obtain ⟨f', q, n2, he, hfq, ⟨fc2, hfc2, hlead⟩, l, hget, hnot⟩ := h4
        exact Or.inr (Or.inr (Or.inr ⟨f', q, n2, he, hfq,
          ⟨fc2, List.mem_cons_of_mem _ hfc2, hlead⟩, l, hget, hnot⟩))

theorem capturePath_deletes :
    ∀ (fuel : Nat) (t : FsTree) (path : NullFsPath) (σ : State),
      treeOK fuel t = true →
      (∀ q l, PathLeads path q → imGet q σ.dirs = some l →
        ∀ g ∈ l, isChildSeg g.path q = true) →
      ∀ cc ∈ (capturePath fuel t path σ).commands,
        cc ∈ σ.commands ∨ (∃ f, cc = Command.write f) ∨
        (∃ f, cc = Command.touch f) ∨
        (∃ f q n, cc = Command.delete f ∧ f.path = q ++ [n] ∧ PathLeads path q ∧
          ∃ l, imGet q (capturePath fuel t path σ).dirs = some l ∧
            f.path ∉ l.map File.path) := by
  intro fuel
  induction fuel with
  | zero => intro t path σ _ _ cc hcc; exact Or.inl hcc
  | succ m ih =>
    intro t path σ hOK hinvTop cc hcc
    by_cases hdirF : t.stat.is_dir = false
    · simp only [capturePath] at hcc
      rw [if_pos hdirF] at hcc
      exact Or.inl hcc
    · simp only [capturePath] at hcc ⊢
      rw [if_neg hdirF] at hcc ⊢
      have hpairsNL : ∀ fc ∈ currPairs path t, ¬ PathLeads fc.1.path path := by
        intro fc hfc hlead
        rcases currPairs_child hfc with ⟨n2, hn2⟩
        rw [hn2] at hlead
        exact child_not_leads_parent path n2 hlead
      have hinv1 : ∀ q l, (∃ fc, fc ∈ currPairs path t ∧ PathLeads fc.1.path q) →
          imGet q { (σ.diffPrev path ((currPairs path t).map Prod.fst)).2 with
            dirs := imInsert path ((currPairs path t).map Prod.fst)
              (σ.diffPrev path ((currPairs path t).map Prod.fst)).2.dirs }.dirs =
            some l →
          ∀ g ∈ l, isChildSeg g.path q = true := by
        intro q l hex hget
        obtain ⟨fc2, hfc2, hlead⟩ := hex
        rcases currPairs_child hfc2 with ⟨n2, hn2⟩
        have hlen : path.length + 1 ≤ q.length := by
          have h3 := pathLeads_length hlead
          rw [hn2] at h3
          rw [List.length_append] at h3
          simpa using h3
        have hqne : q ≠ path := by
          intro he
          rw [he] at hlen
          omega
        have hget2 : imGet q σ.dirs = some l := by
          rw [imGet_imInsert_ne _ _ hqne,
            (diffPrev_fields σ path ((currPairs path t).map Prod.fst)).2.1] at hget
          exact hget
        have hleadp : PathLeads path q := by
          refine pathLeads_trans ?_ hlead
          rw [hn2]
          exact pathLeads_child path n2
        exact hinvTop q l hleadp hget2 
      rcases captureEntries_deletes m
        (fun c p σ2 hc hi cc2 hcc2 => ih c p σ2 hc hi cc2 hcc2)
        (currPairs path t) _ _ path
        (fun fc hfc => currPairs_child hfc)
        (currPairs_pairwise_paths (treeOK_succ hOK).1)
        (fun fc hfc => by
          rcases currPairs_mem hfc with ⟨n2, hmem, _⟩
          exact (treeOK_succ hOK).2 (n2, fc.2) hmem)
        hinv1 cc hcc with h1 | h2 | h3 | h4
      · rcases diffPrev_commands σ path ((currPairs path t).map Prod.fst) cc h1
          with g1 | g2 | g3
        · exact Or.inl g1
        · exact Or.inr (Or.inl g2)
        · obtain ⟨f, prev, hgetp, he, hfprev, hfnot⟩ := g3
          have hcs := hinvTop path prev (pathLeads_refl path) hgetp f hfprev
          rcases (isChildSeg_iff f.path path).mp hcs with ⟨n2, hn2⟩
          refine Or.inr (Or.inr (Or.inr ⟨f, path, n2, he, hn2,
            pathLeads_refl path, (currPairs path t).map Prod.fst, ?_, hfnot⟩))
          rw [(captureEntries_get_ne (capturePath m) (capturePath_loc_store m)
            (capturePath_loc_dirs m) (currPairs path t) _ _ path hpairsNL).2]
          exact imGet_imInsert_self path _ _
      · exact Or.inr (Or.inl h2)
      · exact Or.inr (Or.inr (Or.inl h3))
      · obtain ⟨f, q, n2, he, hfq, ⟨fc2, hfc2, hlead⟩, l, hget, hnot⟩ := h4
        rcases currPairs_child hfc2 with ⟨n3, hn3⟩
        have hleadp : PathLeads path q := by
          refine pathLeads_trans ?_ hlead
          rw [hn3]
          exact pathLeads_child path n3
        exact Or.inr (Or.inr (Or.inr ⟨f, q, n2, he, hfq, hleadp, l, hget, hnot⟩))

/-! ## Every visited path below the root appears in a stored listing -/

theorem captureEntries_visited_listing (m : Nat)
    (hrec : ∀ c p σ w, treeOK m c = true →
      ((w ∈ visitedDirs m c p ∧ w ≠ p) ∨ w ∈ visitedFiles m c p) →
      ∃ q n l, w = q ++ [n] ∧ PathLeads p q ∧
        imGet q (capturePath m c p σ).dirs = some l ∧ w ∈ l.map File.path) :
    ∀ (pairs : List (File × FsTree)) (allNew : Bool) (σ : State)
      (path : NullFsPath),
      (∀ fc ∈ pairs, ∃ n, fc.1.path = path ++ [n]) →
      pairs.Pairwise (fun a b => a.1.path ≠ b.1.path) →
      (∀ fc ∈ pairs, treeOK m fc.2 = true) →
      ∀ w, (w ∈ visitedDirsEntries (visitedDirs m) pairs ∨
            w ∈ visitedFilesEntries (visitedFiles m) pairs) →
        (∃ fc, fc ∈ pairs ∧ w = fc.1.path) ∨
        ∃ q n l, w = q ++ [n] ∧ (∃ fc, fc ∈ pairs ∧ PathLeads fc.1.path q) ∧
          imGet q (captureEntries (capturePath m) pairs allNew σ).dirs = some l ∧
          w ∈ l.map File.path := by
  intro pairs
  induction pairs with
  | nil =>
    intro allNew σ path _ _ _ w hw
    rcases hw with hw | hw <;> simp [visitedDirsEntries, visitedFilesEntries] at hw
  | cons fc rest ih =>
    intro allNew σ path hch hpw htr w hw
    obtain ⟨f, c⟩ := fc
    obtain ⟨n, hn⟩ := hch (f, c) (List.mem_cons_self _ _)
    have hpwc := List.pairwise_cons.mp hpw
    have hchR : ∀ fc2 ∈ rest, ∃ n2, fc2.1.path = path ++ [n2] :=
      fun e he => hch e (List.mem_cons_of_mem _ he)
    have htrR : ∀ fc2 ∈ rest, treeOK m fc2.2 = true :=
      fun e he => htr e (List.mem_cons_of_mem _ he)
    have hrestNL : ∀ q, PathLeads f.path q →
        ∀ fc2 ∈ rest, ¬ PathLeads fc2.1.path q := by
      intro q hq fc2 hfc2 hq2
      rcases hchR fc2 hfc2 with ⟨n2, hn2⟩
      rw [hn2] at hq2
      rw [hn] at hq
      have heqn := pathLeads_sibling hq hq2
      refine hpwc.1 fc2 hfc2 ?_
      rw [hn, hn2, heqn]
    have hliftTail : ∀ (σ2 : State),
        ((∃ fc2, fc2 ∈ rest ∧ w = fc2.1.path) ∨
          ∃ q n2 l, w = q ++ [n2] ∧ (∃ fc2, fc2 ∈ rest ∧ PathLeads fc2.1.path q) ∧
            imGet q (captureEntries (capturePath m) rest allNew σ2).dirs = some l ∧
            w ∈ l.map File.path) →
        (∃ fc2, fc2 ∈ ((f, c) :: rest) ∧ w = fc2.1.path) ∨
        ∃ q n2 l, w = q ++ [n2] ∧
          (∃ fc2, fc2 ∈ ((f, c) :: rest) ∧ PathLeads fc2.1.path q) ∧
          imGet q (captureEntries (capturePath m) rest allNew σ2).dirs = some l ∧
          w ∈ l.map File.path := by
      intro σ2 h
      rcases h with ⟨fc2, hm, he⟩ | ⟨q, n2, l, he, ⟨fc2, hm, hl⟩, hg, hmem⟩
      · exact Or.inl ⟨fc2, List.mem_cons_of_mem _ hm, he⟩
      · exact Or.inr ⟨q, n2, l, he, ⟨fc2, List.mem_cons_of_mem _ hm, hl⟩, hg, hmem⟩
    by_cases hfile : f.stat.is_file = true
    · simp only [captureEntries]
      rw [if_pos hfile]
      have hw2 : w = f.path ∨
          (w ∈ visitedDirsEntries (visitedDirs m) rest ∨
            w ∈ visitedFilesEntries (visitedFiles m) rest) := by
        rcases hw with hw | hw
        · simp only [visitedDirsEntries, List.mem_append] at hw
          rcases hw with hw | hw
          · rw [if_pos hfile] at hw
            simp at hw
          · exact Or.inr (Or.inl hw)
        · simp only [visitedFilesEntries, List.mem_append] at hw
          rcases hw with hw | hw
          · rw [if_pos hfile] at hw
            simp at hw
            exact Or.inl hw
          · exact Or.inr (Or.inr hw)
      rcases hw2 with hw2 | hw2
      · exact Or.inl ⟨(f, c), List.mem_cons_self _ _, hw2⟩
      · exact hliftTail _ (ih allNew _ path hchR hpwc.2 htrR w hw2)
    · simp only [captureEntries]
      rw [if_neg hfile]
      have hw2 : (w ∈ visitedDirs m c f.path ∨ w ∈ visitedFiles m c f.path) ∨
          (w ∈ visitedDirsEntries (visitedDirs m) rest ∨
            w ∈ visitedFilesEntries (visitedFiles m) rest) := by
        rcases hw with hw | hw
        · simp only [visitedDirsEntries, List.mem_append] at hw
          rcases hw with hw | hw
          · rw [if_neg hfile] at hw
            exact Or.inl (Or.inl hw)
          · exact Or.inr (Or.inl hw)
        · simp only [visitedFilesEntries, List.mem_append] at hw
          rcases hw with hw | hw
          · rw [if_neg hfile] at hw
            exact Or.inl (Or.inr hw)
          · exact Or.inr (Or.inr hw)
      rcases hw2 with hw2 | hw2
      · by_cases hwf : w = f.path
        · exact Or.inl ⟨(f, c), List.mem_cons_self _ _, hwf⟩
        · have hw3 : (w ∈ visitedDirs m c f.path ∧ w ≠ f.path) ∨
              w ∈ visitedFiles m c f.path := by
            rcases hw2 with hw2 | hw2
            · exact Or.inl ⟨hw2, hwf⟩
            · exact Or.inr hw2
          rcases hrec c f.path
            (if allNew then σ.insertCommand (Command.write f) else σ) w
            (htr (f, c) (List.mem_cons_self _ _)) hw3 with ⟨q, n2, l, he, hl, hg, hmem⟩
          refine Or.inr ⟨q, n2, l, he,
            ⟨(f, c), List.mem_cons_self _ _, hl⟩, ?_, hmem⟩
          rw [(captureEntries_get_ne (capturePath m) (capturePath_loc_store m)
            (capturePath_loc_dirs m) rest allNew _ q (hrestNL q hl)).2]
          exact hg
      · exact hliftTail _ (ih allNew _ path hchR hpwc.2 htrR w hw2)

theorem capturePath_visited_listing :
    ∀ (fuel : Nat) (t : FsTree) (path : NullFsPath) (σ : State) (w : NullFsPath),
      treeOK fuel t = true →
      ((w ∈ visitedDirs fuel t path ∧ w ≠ path) ∨ w ∈ visitedFiles fuel t path) →
      ∃ q n l, w = q ++ [n] ∧ PathLeads path q ∧
        imGet q (capturePath fuel t path σ).dirs = some l ∧
        w ∈ l.map File.path := by
  intro fuel
  induction fuel with
  | zero =>
    intro t path σ w _ hw
    rcases hw with ⟨hw, _⟩ | hw <;> simp [visitedDirs, visitedFiles] at hw
  | succ m ih =>
    intro t path σ w hOK hw
    by_cases hdirF : t.stat.is_dir = false
    · rcases hw with ⟨hw, _⟩ | hw
      · simp only [visitedDirs] at hw
        rw [if_pos hdirF] at hw
        simp at hw
      · simp only [visitedFiles] at hw
        rw [if_pos hdirF] at hw
        simp at hw
    · have hw2 : w ∈ visitedDirsEntries (visitedDirs m) (currPairs path t) ∨
          w ∈ visitedFilesEntries (visitedFiles m) (currPairs path t) := by
        rcases hw with ⟨hw, hne⟩ | hw
        · simp only [visitedDirs] at hw
          rw [if_neg hdirF] at hw
          rcases List.mem_cons.mp hw with hw | hw
          · exact absurd hw hne
          · exact Or.inl hw
        · simp only [visitedFiles] at hw
          rw [if_neg hdirF] at hw
          exact Or.inr hw
      simp only [capturePath]
      rw [if_neg hdirF]
      have hpairsNL : ∀ fc ∈ currPairs path t, ¬ PathLeads fc.1.path path := by
        intro fc hfc hlead
        rcases currPairs_child hfc with ⟨n2, hn2⟩
        rw [hn2] at hlead
        exact child_not_leads_parent path n2 hlead
      rcases captureEntries_visited_listing m
        (fun c p σ2 w2 hc hv => ih c p σ2 w2 hc hv)
        (currPairs path t) _ _ path
        (fun fc hfc => currPairs_child hfc)
        (currPairs_pairwise_paths (treeOK_succ hOK).1)
        (fun fc hfc => by
          rcases currPairs_mem hfc with ⟨n2, hmem, _⟩
          exact (treeOK_succ hOK).2 (n2, fc.2) hmem)
        w hw2 with ⟨fc2, hm, he⟩ | ⟨q, n2, l, he, ⟨fc2, hm, hl⟩, hg, hmem⟩
      · rcases currPairs_child hm with ⟨n2, hn2⟩
        refine ⟨path, n2, (currPairs path t).map Prod.fst, by rw [he, hn2],
          pathLeads_refl path, ?_, ?_⟩
        · rw [(captureEntries_get_ne (capturePath m) (capturePath_loc_store m)
            (capturePath_loc_dirs m) (currPairs path t) _ _ path hpairsNL).2]
          exact imGet_imInsert_self path _ _
        · rw [he]
          exact List.mem_map_of_mem File.path (List.mem_map_of_mem Prod.fst hm)
      · rcases currPairs_child hm with ⟨n3, hn3⟩
        have hleadp : PathLeads path q := by
          refine pathLeads_trans ?_ hl
          rw [hn3]
          exact pathLeads_child path n3
        exact ⟨q, n2, l, he, hleadp, hg, hmem⟩

/-! ## The state persisted by a capture is synced with the tree -/

theorem capture_state_synced (t : FsTree) (v : String) (σ : State)
    (hOK : treeOK t.fuel t = true)
    (hndS : (imKeys σ.store).Nodup) (hndD : (imKeys σ.dirs).Nodup)
    (hchild : dirsChildOK σ.dirs = true) :
    Synced t.fuel t [v] { (Snapshot.capture t v σ).2 with commands := [] } := by
  show Synced t.fuel t [v]
    { (capturePath t.fuel t [v] { σ with commands := [] }).finalize with
      commands := [] }
  have hnd := capturePath_nodup t.fuel t [v] { σ with commands := [] } hndS hndD
  have hinv0 : ∀ q l, PathLeads [v] q →
      imGet q ({ σ with commands := ([] : List Command)}).dirs = some l →
      ∀ g ∈ l, isChildSeg g.path q = true :=
    fun q l _ hget => dirsChildOK_spec hchild q l hget
  have hdel : ∀ f,
      Command.delete f ∈ (capturePath t.fuel t [v] { σ with commands := [] }).commands →
      f.path ∉ visitedDirs t.fuel t [v] ∧ f.path ∉ visitedFiles t.fuel t [v] := by
    intro f hf
    rcases capturePath_deletes t.fuel t [v] { σ with commands := [] } hOK hinv0
      (Command.delete f) hf with h1 | h2 | h3 | h4
    · exact absurd h1 (List.not_mem_nil _)
    · obtain ⟨g, hg⟩ := h2
      simp at hg
    · obtain ⟨g, hg⟩ := h3
      simp at hg
    · obtain ⟨g, q', n', he, hgq, hlead', l', hget', hnot'⟩ := h4
      injection he with hfg
      subst hfg
      have hne : f.path ≠ [v] := by
        intro he2
        have h1 := pathLeads_length hlead'
        have h2 := congrArg List.length hgq
        rw [he2] at h2
        simp only [List.length_append, List.length_cons, List.length_nil] at h1 h2
        omega
      constructor
      · intro hvis
        rcases capturePath_visited_listing t.fuel t [v] { σ with commands := [] }
          f.path hOK (Or.inl ⟨hvis, hne⟩) with ⟨q, n, l, he2, hlead, hget, hmem⟩
        have hql : q.length = q'.length := by
          have e1 := congrArg List.length he2
          have e2 := congrArg List.length hgq
          simp only [List.length_append, List.length_cons, List.length_nil] at e1 e2
          omega
        have hqq : q = q' :=
          pathLeads_unique_len ⟨[n], he2.symm⟩ ⟨[n'], hgq.symm⟩ hql
        rw [← hqq] at hget'
        have hll : l = l' := by
          have := hget.symm.trans hget'
          exact Option.some.inj this
        rw [hll] at hmem
        exact hnot' hmem
      · intro hvis
        rcases capturePath_visited_listing t.fuel t [v] { σ with commands := [] }
          f.path hOK (Or.inr hvis) with ⟨q, n, l, he2, hlead, hget, hmem⟩
        have hql : q.length = q'.length := by
          have e1 := congrArg List.length he2
          have e2 := congrArg List.length hgq
          simp only [List.length_append, List.length_cons, List.length_nil] at e1 e2
          omega
        have hqq : q = q' :=
          pathLeads_unique_len ⟨[n], he2.symm⟩ ⟨[n'], hgq.symm⟩ hql
        rw [← hqq] at hget'
        have hll : l = l' := by
          have := hget.symm.trans hget'
          exact Option.some.inj this
        rw [hll] at hmem
        exact hnot' hmem
  refine Synced_stable t.fuel t [v]
    (capturePath t.fuel t [v] { σ with commands := [] }) _ ?_ ?_
    (capturePath_establish t.fuel t [v] { σ with commands := [] } hOK)
  · intro q hq
    show imGet q ((capturePath t.fuel t [v] { σ with commands := [] }).commands.foldl
        finalizeStep (capturePath t.fuel t [v] { σ with commands := [] })).dirs =
      imGet q (capturePath t.fuel t [v] { σ with commands := [] }).dirs
    refine (finalizeFold_get_ne _ _ q (hnd.1) (hnd.2) ?_).2
    intro hd
    rcases mem_deletedPaths_iff.mp hd with ⟨f, hfmem, hfpath⟩
    exact (hdel f hfmem).1 (hfpath ▸ hq)
  · intro q hq
    show imGet q ((capturePath t.fuel t [v] { σ with commands := [] }).commands.foldl
        finalizeStep (capturePath t.fuel t [v] { σ with commands := [] })).store =
      imGet q (capturePath t.fuel t [v] { σ with commands := [] }).store
    refine (finalizeFold_get_ne _ _ q (hnd.1) (hnd.2) ?_).1
    intro hd
    rcases mem_deletedPaths_iff.mp hd with ⟨f, hfmem, hfpath⟩
    exact (hdel f hfmem).2 (hfpath ▸ hq)

/-- C2: running `Snapshot::capture` twice in a row over an unchanged volume
tree yields an empty command set for the second run, provided the loaded
state satisfies the data-model invariants: the `IndexMap` keys of `store`
and `dirs` are pairwise distinct, every entry of a `dirs` listing is a
direct child of its key, and the directory listings of the tree carry
pairwise-distinct names (as `read_dir` guarantees).  Without the child
invariant on `dirs` the second capture can emit commands
(`capture_idempotent_counterexample`). -/
theorem capture_idempotent (t : FsTree) (v : String) (σ : State)
    (hOK : treeOK t.fuel t = true)
    (hndS : (imKeys σ.store).Nodup) (hndD : (imKeys σ.dirs).Nodup)
    (hchild : dirsChildOK σ.dirs = true) :
    (Snapshot.capture t v (Snapshot.capture t v σ).2).1 = [] := by
  have hSyn := capture_state_synced t v σ hOK hndS hndD hchild
  have hfix := capturePath_fix t.fuel t [v] _ hSyn
  show ((capturePath t.fuel t [v]
    { (Snapshot.capture t v σ).2 with commands := [] }).finalize).infer_commands = []
  rw [hfix]
  rfl

/-- C2 witness: all four invariant hypotheses hold for the example tree and
the fresh state, and two back-to-back captures indeed end with an empty
second command set. -/
theorem capture_idempotent_witness :
    treeOK exTreeAX.fuel exTreeAX = true ∧
    (imKeys State.new.store).Nodup ∧ (imKeys State.new.dirs).Nodup ∧
    dirsChildOK State.new.dirs = true ∧
    (Snapshot.capture exTreeAX "v"
      (Snapshot.capture exTreeAX "v" State.new).2).1 = [] :=
  ⟨by decide, by decide, by decide, by decide,
    capture_idempotent exTreeAX "v" State.new
      (by decide) (by decide) (by decide) (by decide)⟩

/-- C2 counterexample: for a loaded state whose `dirs` listing violates the
direct-child invariant (the root listing mentions `@/v/a/x`), the second of
two back-to-back captures over the unchanged tree emits a `Touch` command,
so capture is not idempotent for arbitrary states. -/
theorem capture_idempotent_counterexample :
    (Snapshot.capture exTreeAX "v"
      (Snapshot.capture exTreeAX "v" exStateBad).2).1 ≠ [] := by decide

/-! ## The all-new walk: first capture over an unknown tree -/

theorem finalize_commands (s : State) :
    s.finalize.commands = s.commands.filter (fun c =>
      match c with
      | Command.touch f => decide (f.path ∉ createdPaths s.commands)
      | _ => true) := by
  show (s.commands.foldl finalizeStep s).commands.filter (fun c =>
      match c with
      | Command.touch f => decide (f.path ∉ createdPaths s.commands)
      | _ => true) = _
  rw [(finalizeFold_fields s.commands s).1]

theorem captureEntries_allNew (m : Nat)
    (hrec : ∀ c p σ, treeOK m c = true →
      (∀ q, PathLeads p q → imGet q σ.dirs = none) →
      (∀ cc ∈ (capturePath m c p σ).commands,
          cc ∈ σ.commands ∨ (∃ f, cc = Command.write f) ∨
          (∃ f, cc = Command.touch f ∧
            Command.write f ∈ (capturePath m c p σ).commands)) ∧
      (∀ f ∈ discoveredEntries m c p,
          Command.write f ∈ (capturePath m c p σ).commands)) :
    ∀ (pairs : List (File × FsTree)) (σ : State) (path : NullFsPath),
      (∀ fc ∈ pairs, ∃ n, fc.1.path = path ++ [n]) →
      pairs.Pairwise (fun a b => a.1.path ≠ b.1.path) →
      (∀ fc ∈ pairs, treeOK m fc.2 = true) →
      (∀ fc ∈ pairs, ∀ q, PathLeads fc.1.path q → imGet q σ.dirs = none) →
      (∀ cc ∈ (captureEntries (capturePath m) pairs true σ).commands,
          cc ∈ σ.commands ∨ (∃ f, cc = Command.write f) ∨
          (∃ f, cc = Command.touch f ∧
            Command.write f ∈
              (captureEntries (capturePath m) pairs true σ).commands)) ∧
      (∀ fc ∈ pairs,
          Command.write fc.1 ∈
            (captureEntries (capturePath m) pairs true σ).commands) ∧
      (∀ f ∈ discoveredGo (discoveredEntries m) pairs,
          Command.write f ∈
            (captureEntries (capturePath m) pairs true σ).commands) := by
  intro pairs
  induction pairs with
  | nil =>
    intro σ path _ _ _ _
    refine ⟨fun cc hcc => Or.inl hcc, ?_, ?_⟩
    · intro fc hfc; simp at hfc
    · intro f hf; simp [discoveredGo] at hf
  | cons fc rest ih =>
    intro σ path hch hpw htr hnone
    obtain ⟨f, c⟩ := fc
    obtain ⟨n, hn⟩ := hch (f, c) (List.mem_cons_self _ _)
    have hpwc := List.pairwise_cons.mp hpw
    have hchR : ∀ fc2 ∈ rest, ∃ n2, fc2.1.path = path ++ [n2] :=
      fun e he => hch e (List.mem_cons_of_mem _ he)
    have htrR : ∀ fc2 ∈ rest, treeOK m fc2.2 = true :=
      fun e he => htr e (List.mem_cons_of_mem _ he)
    have hrestNL : ∀ q, PathLeads f.path q →
        ∀ fc2 ∈ rest, ¬ PathLeads fc2.1.path q := by
      intro q hq fc2 hfc2 hq2
      rcases hchR fc2 hfc2 with ⟨n2, hn2⟩
      rw [hn2] at hq2
      rw [hn] at hq
      have heqn := pathLeads_sibling hq hq2
      refine hpwc.1 fc2 hfc2 ?_
      rw [hn, hn2, heqn]
    have h0 : Command.write f ∈ (σ.insertCommand (Command.write f)).commands :=
      mem_isInsert.mpr (Or.inr rfl)
    by_cases hfile : f.stat.is_file = true
    · simp only [captureEntries]
      simp only [if_true]
      rw [if_pos hfile]
      have hwfS2 : Command.write f ∈
          (if ((σ.insertCommand (Command.write f)).update_on_change f).1 = true
            then ((σ.insertCommand (Command.write f)).update_on_change
              f).2.insertCommand (Command.touch f)
            else ((σ.insertCommand
              (Command.write f)).update_on_change f).2).commands := by
        by_cases hr :
            ((σ.insertCommand (Command.write f)).update_on_change f).1 = true
        · rw [if_pos hr]
          refine mem_isInsert.mpr (Or.inl ?_)
          rw [(update_on_change_fields _ f).2.2]
          exact h0
        · rw [if_neg hr]
          rw [(update_on_change_fields _ f).2.2]
          exact h0
      have hnone2 : ∀ fc2 ∈ rest, ∀ q, PathLeads fc2.1.path q →
          imGet q (if ((σ.insertCommand (Command.write f)).update_on_change f).1
              = true
            then ((σ.insertCommand (Command.write f)).update_on_change
              f).2.insertCommand (Command.touch f)
            else ((σ.insertCommand
              (Command.write f)).update_on_change f).2).dirs = none := by
        intro fc2 hfc2 q hq
        rw [touchStep_dirs]
        exact hnone fc2 (List.mem_cons_of_mem _ hfc2) q hq
      obtain ⟨ha2, hb2, hc2⟩ := ih _ path hchR hpwc.2 htrR hnone2
      have hwfFinal := captureEntries_commands_mono (capturePath m)
        (fun c2 p2 σ2 cc2 h2 => capturePath_commands_mono m c2 p2 σ2 cc2 h2)
        rest true _ (Command.write f) hwfS2
      refine ⟨?_, ?_, ?_⟩
      · intro cc hcc
        rcases ha2 cc hcc with h1 | h2 | h3
        · rcases touchStep_commands _ f cc h1 with h4 | h4
          · rcases mem_isInsert.mp h4 with h5 | h5
            · exact Or.inl h5
            · exact Or.inr (Or.inl ⟨f, h5⟩)
          · exact Or.inr (Or.inr ⟨f, h4, hwfFinal⟩)
        · exact Or.inr (Or.inl h2)
        · exact Or.inr (Or.inr h3)
      · intro fc2 hfc2
        rcases List.mem_cons.mp hfc2 with he | hm
        · rw [he]
          exact hwfFinal
        · exact hb2 fc2 hm
      · intro g hg
        simp only [discoveredGo, List.mem_append] at hg
        rcases hg with hg | hg
        · rw [if_pos hfile] at hg
          simp at hg
        · exact hc2 g hg
    · simp only [captureEntries]
      simp only [if_true]
      rw [if_neg hfile]
      have hcOK := htr (f, c) (List.mem_cons_self _ _)
      have hrecNone : ∀ q, PathLeads f.path q →
          imGet q (σ.insertCommand (Command.write f)).dirs = none :=
        fun q hq => hnone (f, c) (List.mem_cons_self _ _) q hq
      obtain ⟨haC, hbC⟩ := hrec c f.path (σ.insertCommand (Command.write f))
        hcOK hrecNone
      have hwfS2 : Command.write f ∈
          (capturePath m c f.path (σ.insertCommand (Command.write f))).commands :=
        capturePath_commands_mono m c f.path _ (Command.write f) h0
      have hnone2 : ∀ fc2 ∈ rest, ∀ q, PathLeads fc2.1.path q →
          imGet q (capturePath m c f.path
            (σ.insertCommand (Command.write f))).dirs = none := by
        intro fc2 hfc2 q hq
        have hnotf : ¬ PathLeads f.path q :=
          fun hcon => hrestNL q hcon fc2 hfc2 hq
        rw [capturePath_loc_dirs m c f.path _ q hnotf]
        exact hnone fc2 (List.mem_cons_of_mem _ hfc2) q hq
      obtain ⟨ha2, hb2, hc2⟩ := ih _ path hchR hpwc.2 htrR hnone2
      have hmono := captureEntries_commands_mono (capturePath m)
        (fun c2 p2 σ2 cc2 h2 => capturePath_commands_mono m c2 p2 σ2 cc2 h2)
        rest true (capturePath m c f.path (σ.insertCommand (Command.write f)))
      refine ⟨?_, ?_, ?_⟩
      · intro cc hcc
        rcases ha2 cc hcc with h1 | h2 | h3
        · rcases haC cc h1 with g1 | g2 | g3
          · rcases mem_isInsert.mp g1 with h5 | h5
            · exact Or.inl h5
            · exact Or.inr (Or.inl ⟨f, h5⟩)
          · exact Or.inr (Or.inl g2)
          · obtain ⟨g, hg, hw⟩ := g3
            exact Or.inr (Or.inr ⟨g, hg, hmono (Command.write g) hw⟩)
        · exact Or.inr (Or.inl h2)
        · exact Or.inr (Or.inr h3)
      · intro fc2 hfc2
        rcases List.mem_cons.mp hfc2 with he | hm
        · rw [he]
          exact hmono (Command.write f) hwfS2
        · exact hb2 fc2 hm
      · intro g hg
        simp only [discoveredGo, List.mem_append] at hg
        rcases hg with hg | hg
        · rw [if_neg hfile] at hg
          exact hmono (Command.write g) (hbC g hg)
        · exact hc2 g hg

theorem capturePath_allNew :
    ∀ (fuel : Nat) (t : FsTree) (path : NullFsPath) (σ : State),
      treeOK fuel t = true →
      (∀ q, PathLeads path q → imGet q σ.dirs = none) →
      (∀ cc ∈ (capturePath fuel t path σ).commands,
          cc ∈ σ.commands ∨ (∃ f, cc = Command.write f) ∨
          (∃ f, cc = Command.touch f ∧
            Command.write f ∈ (capturePath fuel t path σ).commands)) ∧
      (∀ f ∈ discoveredEntries fuel t path,
          Command.write f ∈ (capturePath fuel t path σ).commands) := by
  intro fuel
  induction fuel with
  | zero =>
    intro t path σ _ _
    refine ⟨fun cc hcc => Or.inl hcc, ?_⟩
    intro f hf
    simp [discoveredEntries] at hf
  | succ m ih =>
    intro t path σ hOK hnone
    by_cases hdirF : t.stat.is_dir = false
    · refine ⟨?_, ?_⟩
      · intro cc hcc
        simp only [capturePath] at hcc
        rw [if_pos hdirF] at hcc
        exact Or.inl hcc
      · intro f hf
        simp only [discoveredEntries] at hf
        rw [if_pos hdirF] at hf
        simp at hf
    · have hget0 : imGet path σ.dirs = none := hnone path (pathLeads_refl path)
      have hnone1 : ∀ fc ∈ currPairs path t, ∀ q, PathLeads fc.1.path q →
          imGet q (imInsert path ((currPairs path t).map Prod.fst) σ.dirs) =
            none := by
        intro fc hfc q hq
        rcases currPairs_child hfc with ⟨n2, hn2⟩
        have hlen : path.length + 1 ≤ q.length := by
          have h3 := pathLeads_length hq
          rw [hn2] at h3
          rw [List.length_append] at h3
          simpa using h3
        have hqne : q ≠ path := by
          intro he
          rw [he] at hlen
          omega
        rw [imGet_imInsert_ne _ _ hqne]
        refine hnone q ?_
        refine pathLeads_trans ?_ hq
        rw [hn2]
        exact pathLeads_child path n2
      obtain ⟨ha, hb, hc⟩ := captureEntries_allNew m
        (fun c p σ2 hc2 hn2 => ih c p σ2 hc2 hn2)
        (currPairs path t)
        { σ with dirs := imInsert path ((currPairs path t).map Prod.fst) σ.dirs }
        path
        (fun fc hfc => currPairs_child hfc)
        (currPairs_pairwise_paths (treeOK_succ hOK).1)
        (fun fc hfc => by
          rcases currPairs_mem hfc with ⟨n2, hmem, _⟩
          exact (treeOK_succ hOK).2 (n2, fc.2) hmem)
        hnone1
      have hwalk : capturePath (m + 1) t path σ =
          captureEntries (capturePath m) (currPairs path t) true
            { σ with dirs :=
                imInsert path ((currPairs path t).map Prod.fst) σ.dirs } := by
        simp only [capturePath]
        rw [if_neg hdirF, diffPrev_none σ path _ hget0]
      rw [hwalk]
      refine ⟨?_, ?_⟩
      · intro cc hcc
        rcases ha cc hcc with h1 | h2 | h3
        · exact Or.inl h1
        · exact Or.inr (Or.inl h2)
        · exact Or.inr (Or.inr h3)
      · intro g hg
        simp only [discoveredEntries] at hg
        rw [if_neg hdirF] at hg
        rcases List.mem_append.mp hg with hg | hg
        · rcases List.mem_map.mp hg with ⟨fc, hfc, he⟩
          rw [← he]
          exact hb fc hfc
        · exact hc g hg

/-- C3: a capture over a volume tree whose directory listings carry
pairwise-distinct names, starting from a state with an empty `dirs` map (the
first-ever capture), returns a `Write` command for every file and directory
entry discovered by the walk, and returns no `Touch` and no `Delete`
command. -/
theorem first_capture_all_writes (t : FsTree) (v : String) (σ : State)
    (hOK : treeOK t.fuel t = true) (hdirs : σ.dirs = []) :
    (∀ f ∈ discoveredEntries t.fuel t [v],
        Command.write f ∈ (Snapshot.capture t v σ).1) ∧
    (∀ f, Command.touch f ∉ (Snapshot.capture t v σ).1) ∧
    (∀ f, Command.delete f ∉ (Snapshot.capture t v σ).1) := by
  have hnone : ∀ q, PathLeads [v] q →
      imGet q ({ σ with commands := ([] : List Command) }).dirs = none := by
    intro q _
    show imGet q σ.dirs = none
    rw [hdirs]
    rfl
  obtain ⟨ha, hb⟩ := capturePath_allNew t.fuel t [v]
    { σ with commands := [] } hOK hnone
  have hout : (Snapshot.capture t v σ).1 =
      (capturePath t.fuel t [v] { σ with commands := [] }).commands.filter
        (fun c =>
          match c with
          | Command.touch f => decide (f.path ∉ createdPaths
              (capturePath t.fuel t [v] { σ with commands := [] }).commands)
          | _ => true) := by
    show (capturePath t.fuel t [v]
      { σ with commands := [] }).finalize.commands = _
    rw [finalize_commands]
  refine ⟨?_, ?_, ?_⟩
  · intro f hf
    rw [hout]
    exact List.mem_filter.mpr ⟨hb f hf, rfl⟩
  · intro f hmem
    rw [hout] at hmem
    obtain ⟨hin, hpred⟩ := List.mem_filter.mp hmem
    have hnotin : f.path ∉ createdPaths
        (capturePath t.fuel t [v] { σ with commands := [] }).commands :=
      of_decide_eq_true hpred
    rcases ha (Command.touch f) hin with h1 | h2 | h3
    · exact absurd h1 (List.not_mem_nil _)
    · obtain ⟨g, hg⟩ := h2
      simp at hg
    · obtain ⟨g, hg, hw⟩ := h3
      have hfg : f = g := by
        injection hg
      rw [hfg] at hnotin
      exact hnotin (mem_createdPaths_of_write hw)
  · intro f hmem
    rw [hout] at hmem
    obtain ⟨hin, _⟩ := List.mem_filter.mp hmem
    rcases ha (Command.delete f) hin with h1 | h2 | h3
    · exact absurd h1 (List.not_mem_nil _)
    · obtain ⟨g, hg⟩ := h2
      simp at hg
    · obtain ⟨g, hg, _⟩ := h3
      simp at hg

/-- C3 witness: for the example tree and the fresh state both hypotheses
hold, every discovered entry receives a `Write`, and the first capture
contains no `Touch` and no `Delete`. -/
theorem first_capture_all_writes_witness :
    treeOK exTreeAX.fuel exTreeAX = true ∧ State.new.dirs = [] ∧
    (∀ f ∈ discoveredEntries exTreeAX.fuel exTreeAX ["v"],
        Command.write f ∈ (Snapshot.capture exTreeAX "v" State.new).1) ∧
    (∀ f, Command.touch f ∉ (Snapshot.capture exTreeAX "v" State.new).1) ∧
    (∀ f, Command.delete f ∉ (Snapshot.capture exTreeAX "v" State.new).1) :=
  ⟨by decide, rfl,
    (first_capture_all_writes exTreeAX "v" State.new (by decide) rfl).1,
    (first_capture_all_writes exTreeAX "v" State.new (by decide) rfl).2.1,
    (first_capture_all_writes exTreeAX "v" State.new (by decide) rfl).2.2⟩
